import Mathlib

/-!
# Verification of the AI-Chat-Generator markdown/frontmatter micro-language

Shallow embedding of the document-format code of the repository:
the frontmatter encoder and lightweight decoder, the body segmenters
(chat messages and plan sections), the block renderers, the checklist
toggle, the filename-safety predicate and the frontmatter update tool.

Strings are modelled as `List Char` (JavaScript strings are sequences of
code units; all inputs of interest here are plain text, so code points
suffice).  JavaScript `trim`/`\s` are modelled over the ASCII whitespace
characters; `toLowerCase` over ASCII letters.
-/

namespace AIChat

/-! ## Basic string helpers (JS semantics) -/

/-- ASCII fragment of the JavaScript whitespace class used by `trim` and `\s`. -/
def isJsWs (c : Char) : Bool :=
  c = ' ' || c = '\t' || c = '\n' || c = '\r' || c = '\x0b' || c = '\x0c'

/-- JS `String.prototype.trimStart`. -/
def trimLeft (s : List Char) : List Char := s.dropWhile isJsWs

/-- JS `String.prototype.trimEnd`. -/
def trimRight (s : List Char) : List Char := (s.reverse.dropWhile isJsWs).reverse

/-- JS `String.prototype.trim`. -/
def jsTrim (s : List Char) : List Char := trimLeft (trimRight s)

/-- ASCII fragment of JS `toLowerCase`. -/
def jsLower (s : List Char) : List Char := s.map Char.toLower

/-- JS `split('\n')`. -/
def splitNl (s : List Char) : List (List Char) := s.splitOn '\n'

/-- JS `join('\n')`. -/
def joinNl (ls : List (List Char)) : List Char := List.intercalate ['\n'] ls

/-- First occurrence of `pat` in a string: returns the part before the match and
the part after it (JS `indexOf`-style search, leftmost match). -/
def splitFirst (pat : List Char) : List Char → Option (List Char × List Char)
  | [] => if pat = [] then some ([], []) else none
  | c :: cs =>
    if pat.isPrefixOf (c :: cs) then some ([], (c :: cs).drop pat.length)
    else
      match splitFirst pat cs with
      | some (a, b) => some (c :: a, b)
      | none => none

/-- JS `String.prototype.includes`. -/
def jsIncludes (pat s : List Char) : Bool := (splitFirst pat s).isSome

/-! ## Frontmatter encoder (`src/pages/api/update-plan.ts`) -/

/-- A milestone record, as typed in `update-plan.ts` and `EditablePlan.tsx`. -/
structure Milestone where
  title : List Char
  weeks : List Char
  status : List Char
deriving DecidableEq, Repr

/-- A frontmatter field value: the value shapes `buildFrontmatter` distinguishes.
`vnull` stands for JS `undefined`/`null`. -/
inductive FmValue where
  | vstr (s : List Char)
  | vbool (b : Bool)
  | vint (n : Int)
  | vstrArr (xs : List (List Char))
  | vrecArr (ms : List Milestone)
  | vnull
deriving DecidableEq, Repr

/-- `value.replace(/\\/g, '\\\\')`: escape every backslash. -/
def escBackslash (s : List Char) : List Char :=
  s.flatMap fun c => if c = '\\' then ['\\', '\\'] else [c]

/-- `value.replace(/"/g, '\\"')`: escape every double quote. -/
def escQuote (s : List Char) : List Char :=
  s.flatMap fun c => if c = '"' then ['\\', '"'] else [c]

/-- JS `String(value)` on an array (used by `serializeYamlValue`'s fallback on
non-scalar values): elements joined by commas, objects as `[object Object]`. -/
def jsStringOfArr (xs : List (List Char)) : List Char :=
  List.intercalate [','] xs

/-- `serializeYamlValue` from `update-plan.ts`: strings double-quoted with
backslashes then quotes escaped, booleans and numbers bare, anything else via
JS `String(value)`. -/
def serializeYamlValue : FmValue → List Char
  | .vstr s => '"' :: (escQuote (escBackslash s)) ++ ['"']
  | .vbool b => if b then "true".data else "false".data
  | .vint n => (toString n).data
  | .vstrArr xs => jsStringOfArr xs
  | .vrecArr ms => jsStringOfArr (ms.map fun _ => "[object Object]".data)
  | .vnull => "null".data

/-- The inline-bracket tags line: `` `tags: [${arr}]` `` with each element
double-quoted and the elements joined by `", "`. -/
def tagsLine (xs : List (List Char)) : List Char :=
  "tags: [".data ++
    List.intercalate ", ".data (xs.map fun t => '"' :: t ++ ['"']) ++ [']']

/-- The three lines emitted for one milestone record:
`` `  - title: ${ser(m.title)}` ``, `` `    weeks: ${ser(m.weeks)}` ``,
`` `    status: "${m.status}"` `` (the status is interpolated raw). -/
def milestoneLines (m : Milestone) : List (List Char) :=
  [ "  - title: ".data ++ serializeYamlValue (.vstr m.title),
    "    weeks: ".data ++ serializeYamlValue (.vstr m.weeks),
    "    status: \"".data ++ m.status ++ ['"'] ]

/-- The `lines` accumulated by `buildFrontmatter` for a single field:
the `milestones` branch fires for an array value under key `milestones`,
the `tags` branch for an array value under key `tags`, `undefined`/`null`
values are omitted, and everything else becomes a scalar line.
(An array of strings under key `milestones` would be read as records whose
fields are `undefined`; an array of records under key `tags` stringifies each
record — both interpolations follow the JS template-literal semantics.) -/
def fieldLines (key : List Char) : FmValue → List (List Char)
  | .vrecArr ms =>
    if key = "milestones".data then
      "milestones:".data :: ms.flatMap milestoneLines
    else if key = "tags".data then
      [tagsLine (ms.map fun _ => "[object Object]".data)]
    else [key ++ ": ".data ++ serializeYamlValue (.vrecArr ms)]
  | .vstrArr xs =>
    if key = "milestones".data then
      "milestones:".data ::
        xs.flatMap fun _ =>
          [ "  - title: undefined".data, "    weeks: undefined".data,
            "    status: \"undefined\"".data ]
    else if key = "tags".data then [tagsLine xs]
    else [key ++ ": ".data ++ serializeYamlValue (.vstrArr xs)]
  | .vnull => []
  | v => [key ++ ": ".data ++ serializeYamlValue v]

/-- `buildFrontmatter` from `update-plan.ts`: per-field lines joined with `\n`. -/
def buildFrontmatter (fields : List (List Char × FmValue)) : List Char :=
  joinNl (fields.flatMap fun kv => fieldLines kv.1 kv.2)

/-- The document text written by the `POST` handler of `update-plan.ts`:
`` `---\n${fm}\n---\n\n${mdxBody.trim()}\n` ``. -/
def assembleDocument (fields : List (List Char × FmValue)) (body : List Char) :
    List Char :=
  "---\n".data ++ buildFrontmatter fields ++ "\n---\n\n".data ++ jsTrim body ++ ['\n']

/-! ## Filename safety (`mcp/utils.mjs`, `isSafeFilename`) -/

/-- JS `\w`: ASCII word character. -/
def isWordChar (c : Char) : Bool := c.isAlphanum || c = '_'

/-- Character class `[\w.-]` of the filename pattern. -/
def isFnameChar (c : Char) : Bool := isWordChar c || c = '.' || c = '-'

/-- `/^[\w.-]+\.mdx$/.test(filename)`: one or more class characters followed by
the literal suffix `.mdx`. -/
def fnamePatternTest (s : List Char) : Bool :=
  ".mdx".data.isSuffixOf s &&
    decide (s.length ≥ 5) &&
    (s.dropLast.dropLast.dropLast.dropLast).all isFnameChar

/-- `isSafeFilename` from `mcp/utils.mjs`: pattern match and no `..` substring. -/
def isSafeFilename (s : List Char) : Bool :=
  fnamePatternTest s && !(jsIncludes "..".data s)

/-! ## Lightweight frontmatter decoder (`mcp/utils.mjs`, `readFrontmatter`) -/

/-- The group captured by matching raw against the anchored lazy pattern
`^---\n([\s\S]*?)\n---` : the text must start with `---\n`, and the lazy
group ends at the first later `\n---`. -/
def extractFmBlock (raw : List Char) : Option (List Char) :=
  if "---\n".data.isPrefixOf raw then
    (splitFirst "\n---".data (raw.drop 4)).map Prod.fst
  else none

/-- `val.replace(/^"(.*)"$/, '$1')`: strip one pair of surrounding double
quotes (the match needs two distinct quote characters, and `.` does not cross
newlines). -/
def stripQuotes (v : List Char) : List Char :=
  if v.length ≥ 2 && (v.head? == some '"') && (v.getLast? == some '"')
      && ((v.drop 1).dropLast.all fun c => c ≠ '\n') then
    (v.drop 1).dropLast
  else v

/-- JS object-field assignment on the accumulated map: overwrite in place if
the key exists, otherwise append (insertion order preserved). -/
def setFm (fm : List (List Char × List Char)) (k v : List Char) :
    List (List Char × List Char) :=
  if fm.any (fun kv => kv.1 = k) then
    fm.map fun kv => if kv.1 = k then (k, v) else kv
  else fm ++ [(k, v)]

/-- One iteration of the `readFrontmatter` line loop: skip lines with no colon
and indented lines, trim the key, trim and quote-strip the value. -/
def parseFmLine (fm : List (List Char × List Char)) (line : List Char) :
    List (List Char × List Char) :=
  match splitFirst [':'] line with
  | none => fm
  | some (pre, post) =>
    if line.head? = some ' ' then fm
    else
      let key := jsTrim pre
      let val := stripQuotes (jsTrim post)
      if key = [] then fm else setFm fm key val

/-- `readFrontmatter` from `mcp/utils.mjs`, applied to the file text. -/
def readFrontmatter (raw : List Char) : List (List Char × List Char) :=
  match extractFmBlock raw with
  | none => []
  | some fm => (splitNl fm).foldl parseFmLine []

/-! ## Chat segmentation (`ChatLog.tsx`, `parseChatContent`) -/

inductive Role where
  | user
  | ai
deriving DecidableEq, Repr

structure ChatMessage where
  role : Role
  content : List Char
deriving DecidableEq, Repr

/-- Worker for `raw.split(/^## /m)`: cut at every `## ` that follows a
newline; the newline stays with the preceding chunk and the separator is
removed. -/
def chatSplitGo (acc : List Char) : List Char → List (List Char)
  | [] => [acc.reverse]
  | '\n' :: '#' :: '#' :: ' ' :: rest => (acc.reverse ++ ['\n']) :: chatSplitGo [] rest
  | c :: cs => chatSplitGo (c :: acc) cs

/-- `raw.split(/^## /m)`: the multiline anchor also matches at position 0. -/
def chatSplit (s : List Char) : List (List Char) :=
  if "## ".data.isPrefixOf s then [] :: chatSplitGo [] (s.drop 3)
  else chatSplitGo [] s

/-- The per-chunk body of the `parseChatContent` loop, mapped over the
non-empty chunks (`.filter(Boolean)`). -/
def parseChatContentGo : List (List Char) → List ChatMessage
  | [] => []
  | sec :: rest =>
    match splitFirst ['\n'] sec with
    | none => parseChatContentGo rest
    | some (pre, post) =>
      let heading := jsLower (jsTrim pre)
      let content := jsTrim post
      if content = [] then parseChatContentGo rest
      else if heading = "user".data then ⟨.user, content⟩ :: parseChatContentGo rest
      else if heading = "ai".data then ⟨.ai, content⟩ :: parseChatContentGo rest
      else parseChatContentGo rest

/-- `parseChatContent` from `ChatLog.tsx`. -/
def parseChatContent (raw : List Char) : List ChatMessage :=
  parseChatContentGo ((chatSplit raw).filter fun s => s ≠ [])

/-! ## Section segmentation (`parseSections` in `PlanContent`/`EditablePlan`,
and the intro extraction loop) -/

structure PSection where
  level : Nat
  title : List Char
  content : List Char
deriving DecidableEq, Repr

/-- The heading tests `line.match(/^## (.+)/)` / `line.match(/^### (.+)/)`
(`##`-test first, as in the source; a line can match at most one). -/
def headingOf (line : List Char) : Option (Nat × List Char) :=
  if "## ".data.isPrefixOf line ∧ line.drop 3 ≠ [] then
    some (2, jsTrim (line.drop 3))
  else if "### ".data.isPrefixOf line ∧ line.drop 4 ≠ [] then
    some (3, jsTrim (line.drop 4))
  else none

/-- The `flush` closure of `parseSections`: emit the current section (content
joined and trimmed); emits nothing when no section is open. -/
def flushS : Option (Nat × List Char) → List (List Char) → List PSection
  | none, _ => []
  | some (lvl, t), buf => [⟨lvl, t, jsTrim (joinNl buf)⟩]

/-- The `parseSections` line loop.  Note the source resets the content buffer
only inside `flush`'s guard, so lines seen while no section is open stay in
the buffer. -/
def parseSectionsGo :
    Option (Nat × List Char) → List (List Char) → List (List Char) → List PSection
  | cur, buf, [] => flushS cur buf
  | cur, buf, l :: ls =>
    match headingOf l with
    | some h => flushS cur buf ++ parseSectionsGo (some h) (if cur.isSome then [] else buf) ls
    | none => parseSectionsGo cur (buf ++ [l]) ls

/-- `parseSections` (identical in `PlanContent` and `EditablePlan.tsx`). -/
def parseSections (raw : List Char) : List PSection :=
  parseSectionsGo none [] (splitNl raw)

/-- The test `/^##\s/.test(line)` used by the intro-extraction loops. -/
def isLevel2Marker (l : List Char) : Bool :=
  match l with
  | '#' :: '#' :: c :: _ => isJsWs c
  | _ => false

/-- The intro extraction of `PlanContent` / `EditablePlan`: all lines before
the first line matching `/^##\s/`, joined and trimmed. -/
def extractIntro (raw : List Char) : List Char :=
  jsTrim (joinNl ((splitNl raw).takeWhile fun l => !isLevel2Marker l))

/-! ## Lemmas about the leftmost-occurrence search -/

theorem splitFirst_sound (pat : List Char) :
    ∀ (s a b : List Char), splitFirst pat s = some (a, b) → s = a ++ pat ++ b := by
  intro s
  induction s with
  | nil =>
    intro a b h
    by_cases hpat : pat = []
    · subst hpat
      simp only [splitFirst, if_pos rfl, Option.some.injEq, Prod.mk.injEq] at h
      obtain ⟨rfl, rfl⟩ := h
      rfl
    · simp [splitFirst, hpat] at h
  | cons c cs ih =>
    intro a b h
    by_cases hpre : pat.isPrefixOf (c :: cs)
    · have hv := List.prefix_iff_eq_append.mp (List.isPrefixOf_iff_prefix.mp hpre)
      simp only [splitFirst, if_pos hpre, Option.some.injEq, Prod.mk.injEq] at h
      obtain ⟨rfl, rfl⟩ := h
      simpa using hv.symm
    · simp only [splitFirst, if_neg hpre] at h
      cases hrec : splitFirst pat cs with
      | none => rw [hrec] at h; cases h
      | some ab =>
        obtain ⟨a', b'⟩ := ab
        rw [hrec] at h
        simp only [Option.some.injEq, Prod.mk.injEq] at h
        obtain ⟨rfl, rfl⟩ := h
        have hcs := ih a' b' hrec
        simp [hcs]

theorem splitFirst_none (pat : List Char) :
    ∀ (s : List Char), splitFirst pat s = none → ∀ a b, s ≠ a ++ pat ++ b := by
  intro s
  induction s with
  | nil =>
    intro h a b hab
    by_cases hpat : pat = []
    · simp [splitFirst, hpat] at h
    · have : a ++ pat ++ b = [] := hab.symm
      simp only [List.append_eq_nil] at this
      exact hpat this.1.2
  | cons c cs ih =>
    intro h a b hab
    by_cases hpre : pat.isPrefixOf (c :: cs)
    · simp [splitFirst, hpre] at h
    · simp only [splitFirst, if_neg hpre] at h
      cases hrec : splitFirst pat cs with
      | some ab => rw [hrec] at h; cases h
      | none =>
        cases a with
        | nil =>
          apply hpre
          rw [List.isPrefixOf_iff_prefix]
          exact ⟨b, by simpa using hab.symm⟩
        | cons a0 a' =>
          simp only [List.cons_append, List.cons.injEq] at hab
          exact ih hrec a' b hab.2

theorem jsIncludes_iff (pat s : List Char) :
    jsIncludes pat s = true ↔ ∃ a b, s = a ++ pat ++ b := by
  constructor
  · intro h
    unfold jsIncludes at h
    cases hsp : splitFirst pat s with
    | none => rw [hsp] at h; cases h
    | some ab => exact ⟨ab.1, ab.2, splitFirst_sound pat s ab.1 ab.2 (by rw [hsp])⟩
  · rintro ⟨a, b, rfl⟩
    unfold jsIncludes
    cases hsp : splitFirst pat (a ++ pat ++ b) with
    | none => exact absurd rfl (splitFirst_none pat _ hsp a b)
    | some ab => rfl

/-! ## C9: the filename safety predicate -/

theorem dropLast4_append (stem : List Char) (c1 c2 c3 c4 : Char) :
    (stem ++ [c1, c2, c3, c4]).dropLast.dropLast.dropLast.dropLast = stem := by
  have h4 : stem ++ [c1, c2, c3, c4] = (stem ++ [c1, c2, c3]) ++ [c4] := by simp
  have h3 : stem ++ [c1, c2, c3] = (stem ++ [c1, c2]) ++ [c3] := by simp
  have h2 : stem ++ [c1, c2] = (stem ++ [c1]) ++ [c2] := by simp
  rw [h4, List.dropLast_concat, h3, List.dropLast_concat, h2,
    List.dropLast_concat, List.dropLast_concat]

theorem fnamePatternTest_iff (s : List Char) :
    fnamePatternTest s = true ↔
      ∃ stem, s = stem ++ ".mdx".data ∧ stem ≠ [] ∧ stem.all isFnameChar = true := by
  have hmdx : ".mdx".data = ['.', 'm', 'd', 'x'] := rfl
  constructor
  · intro h
    unfold fnamePatternTest at h
    simp only [Bool.and_eq_true, decide_eq_true_eq] at h
    obtain ⟨⟨hsuf, hlen⟩, hall⟩ := h
    obtain ⟨stem, hstem⟩ := List.isSuffixOf_iff_suffix.mp hsuf
    refine ⟨stem, hstem.symm, ?_, ?_⟩
    · intro hnil
      rw [← hstem, hnil] at hlen
      simp [hmdx] at hlen
    · rw [← hstem, dropLast4_append] at hall
      exact hall
  · rintro ⟨stem, rfl, hne, hall⟩
    unfold fnamePatternTest
    simp only [Bool.and_eq_true, decide_eq_true_eq]
    refine ⟨⟨List.isSuffixOf_iff_suffix.mpr ⟨stem, rfl⟩, ?_⟩, ?_⟩
    · have : 1 ≤ stem.length := List.length_pos.mpr hne
      simp only [List.length_append, hmdx]
      simp only [List.length_cons, List.length_nil]
      omega
    · rw [dropLast4_append]
      exact hall

/-- C9: `isSafeFilename(s)` is true exactly when `s` matches
`^[\w.-]+\.mdx$` (a non-empty run of word/dot/hyphen characters followed by
the literal `.mdx`) and contains no `..` substring; it accepts
`2026-02-25-my-plan.mdx` and rejects `../secrets.mdx`, `file.txt`, the empty
string and `subdir/file.mdx`. -/
theorem c9_filename_safety :
    (∀ s : List Char,
      isSafeFilename s = true ↔
        ((∃ stem, s = stem ++ ".mdx".data ∧ stem ≠ [] ∧ stem.all isFnameChar = true) ∧
          ¬ ∃ a b, s = a ++ "..".data ++ b)) ∧
    isSafeFilename "2026-02-25-my-plan.mdx".data = true ∧
    isSafeFilename "../secrets.mdx".data = false ∧
    isSafeFilename "file.txt".data = false ∧
    isSafeFilename "".data = false ∧
    isSafeFilename "subdir/file.mdx".data = false := by
  refine ⟨?_, by decide, by decide, by decide, by decide, by decide⟩
  intro s
  unfold isSafeFilename
  rw [Bool.and_eq_true, Bool.not_eq_true', ← Bool.not_eq_true (jsIncludes "..".data s)]
  rw [fnamePatternTest_iff, jsIncludes_iff]

/-! ## Joining and splitting lines -/

theorem joinNl_nil : joinNl [] = [] := rfl

theorem joinNl_single (l : List Char) : joinNl [l] = l := by
  simp [joinNl, List.intercalate]

theorem joinNl_cons₂ (a b : List Char) (rest : List (List Char)) :
    joinNl (a :: b :: rest) = a ++ '\n' :: joinNl (b :: rest) := by
  simp only [joinNl, List.intercalate, List.intersperse_cons_cons]
  simp

theorem splitNl_joinNl (ls : List (List Char)) (hne : ls ≠ [])
    (hnl : ∀ l ∈ ls, '\n' ∉ l) : splitNl (joinNl ls) = ls :=
  List.splitOn_intercalate ls '\n' hnl hne

/-! ## C7: encoder value shapes -/

theorem nl_not_mem_escape (s : List Char) (h : '\n' ∉ s) :
    '\n' ∉ escQuote (escBackslash s) := by
  intro hmem
  simp only [escQuote, List.mem_flatMap] at hmem
  obtain ⟨c, hc, hcmem⟩ := hmem
  have hcn : c = '\n' := by
    by_cases h1 : c = '"'
    · simp [h1] at hcmem
    · simp [h1] at hcmem
      exact hcmem.symm
  subst hcn
  simp only [escBackslash, List.mem_flatMap] at hc
  obtain ⟨c0, hc0, hc0mem⟩ := hc
  have hc0n : c0 = '\n' := by
    by_cases h0 : c0 = '\\'
    · simp [h0] at hc0mem
    · simp [h0] at hc0mem
      exact hc0mem.symm
  exact h (hc0n ▸ hc0)

/-- C7: `Encode` serializes by value shape: `milestones` as a `milestones:`
line plus a quoted three-line sub-block per record, `tags` as one inline
bracketed line with each element double-quoted (examples `tags: []` and
`tags: ["java", "gsoc"]`), strings double-quoted with backslashes then quotes
escaped (example `say "hi"`), booleans and numbers bare, and
`undefined`/`null` fields omitted. -/
theorem c7_encoder_shapes :
    buildFrontmatter [("tags".data, .vstrArr [])] = "tags: []".data ∧
    buildFrontmatter [("tags".data, .vstrArr ["java".data, "gsoc".data])] =
      "tags: [\"java\", \"gsoc\"]".data ∧
    buildFrontmatter [("title".data, .vstr "say \"hi\"".data)] =
      "title: \"say \\\"hi\\\"\"".data ∧
    (∀ k s, buildFrontmatter [(k, .vstr s)] =
      k ++ ": ".data ++ '"' :: escQuote (escBackslash s) ++ ['"']) ∧
    (∀ k b, buildFrontmatter [(k, .vbool b)] =
      k ++ ": ".data ++ if b then "true".data else "false".data) ∧
    (∀ k (n : Int), buildFrontmatter [(k, .vint n)] =
      k ++ ": ".data ++ (toString n).data) ∧
    (∀ fs1 fs2 k, buildFrontmatter (fs1 ++ (k, FmValue.vnull) :: fs2) =
      buildFrontmatter (fs1 ++ fs2)) ∧
    (∀ ms : List Milestone,
      (∀ m ∈ ms, '\n' ∉ m.title ∧ '\n' ∉ m.weeks ∧ '\n' ∉ m.status) →
      splitNl (buildFrontmatter [("milestones".data, .vrecArr ms)]) =
        "milestones:".data :: ms.flatMap milestoneLines) := by
  refine ⟨by decide, by decide, by decide, ?_, ?_, ?_, ?_, ?_⟩
  · intro k s
    simp [buildFrontmatter, fieldLines, serializeYamlValue, joinNl_single]
  · intro k b
    simp [buildFrontmatter, fieldLines, serializeYamlValue, joinNl_single]
  · intro k n
    simp [buildFrontmatter, fieldLines, serializeYamlValue, joinNl_single]
  · intro fs1 fs2 k
    simp [buildFrontmatter, List.flatMap_append, fieldLines]
  · intro ms hnl
    have hlines : buildFrontmatter [("milestones".data, .vrecArr ms)] =
        joinNl ("milestones:".data :: ms.flatMap milestoneLines) := by
      simp [buildFrontmatter, fieldLines]
    rw [hlines]
    apply splitNl_joinNl _ (by simp)
    intro l hl
    rcases List.mem_cons.mp hl with rfl | hl'
    · decide
    · obtain ⟨m, hm, hlm⟩ := List.mem_flatMap.mp hl'
      obtain ⟨ht, hw, hs⟩ := hnl m hm
      simp only [milestoneLines, serializeYamlValue, List.mem_cons,
        List.mem_singleton] at hlm
      rcases hlm with rfl | rfl | rfl | h
      · intro hmem
        rcases List.mem_append.mp hmem with h1 | h2
        · exact absurd h1 (by decide)
        · rcases List.mem_cons.mp h2 with he | h3
          · exact absurd he (by decide)
          · rcases List.mem_append.mp h3 with h4 | h5
            · exact nl_not_mem_escape m.title ht h4
            · simp at h5
      · intro hmem
        rcases List.mem_append.mp hmem with h1 | h2
        · exact absurd h1 (by decide)
        · rcases List.mem_cons.mp h2 with he | h3
          · exact absurd he (by decide)
          · rcases List.mem_append.mp h3 with h4 | h5
            · exact nl_not_mem_escape m.weeks hw h4
            · simp at h5
      · intro hmem
        rcases List.mem_append.mp hmem with h1 | h2
        · rcases List.mem_append.mp h1 with h1a | h1b
          · exact absurd h1a (by decide)
          · exact hs h1b
        · simp at h2
      · cases h

/-- Witness for C7: the milestone-lines conjunct evaluated at one record. -/
theorem c7_encoder_shapes_witness :
    splitNl (buildFrontmatter [("milestones".data,
        .vrecArr [⟨"Phase 1".data, "Weeks 1-4".data, "complete".data⟩])]) =
      ["milestones:".data, "  - title: \"Phase 1\"".data,
        "    weeks: \"Weeks 1-4\"".data, "    status: \"complete\"".data] := by
  have h := c7_encoder_shapes.2.2.2.2.2.2.2
    [⟨"Phase 1".data, "Weeks 1-4".data, "complete".data⟩] (by decide)
  rw [h]
  decide

/-! ## C3: chat message segmentation -/

/-- The first line of a chunk (the whole chunk when it has no newline). -/
def firstLineOf (sec : List Char) : List Char :=
  match splitFirst ['\n'] sec with
  | none => sec
  | some ab => ab.1

/-- Everything after a chunk's first line (empty when it has no newline). -/
def restOf (sec : List Char) : List Char :=
  match splitFirst ['\n'] sec with
  | none => []
  | some ab => ab.2

/-- The claim's chunk rule: keep a chunk as a message exactly when its first
line is a case-insensitive match for `user`/`ai` and the rest of the chunk is
non-empty after trimming. -/
def claimClassify (sec : List Char) : Option ChatMessage :=
  let fl := jsLower (jsTrim (firstLineOf sec))
  let rest := jsTrim (restOf sec)
  if rest = [] then none
  else if fl = "user".data then some ⟨.user, rest⟩
  else if fl = "ai".data then some ⟨.ai, rest⟩
  else none

theorem parseChatContentGo_eq_filterMap (secs : List (List Char)) :
    parseChatContentGo secs = secs.filterMap claimClassify := by
  induction secs with
  | nil => rfl
  | cons sec rest ih =>
    simp only [parseChatContentGo, List.filterMap_cons]
    cases hsp : splitFirst ['\n'] sec with
    | none =>
      have : claimClassify sec = none := by
        simp [claimClassify, restOf, hsp, jsTrim, trimRight, trimLeft]
      rw [this, ih]
    | some ab =>
      obtain ⟨pre, post⟩ := ab
      have hcc : claimClassify sec =
          (if jsTrim post = [] then none
           else if jsLower (jsTrim pre) = "user".data then
             some ⟨Role.user, jsTrim post⟩
           else if jsLower (jsTrim pre) = "ai".data then
             some ⟨Role.ai, jsTrim post⟩
           else none) := by
        simp [claimClassify, firstLineOf, restOf, hsp]
      rw [hcc, ih]
      by_cases h1 : jsTrim post = [] <;>
        by_cases h2 : jsLower (jsTrim pre) = "user".data <;>
        by_cases h3 : jsLower (jsTrim pre) = "ai".data <;>
        simp [h1, h2, h3]

/-- C3: `parseChatContent` keeps, in order, exactly the chunks of the
`^## `-split whose first line is a case-insensitive `user`/`ai` and whose
remaining trimmed content is non-empty, and on the given example it yields
exactly the two messages `user: hi` and `ai: hello` while the `Random`
section is dropped. -/
theorem c3_segment_messages :
    (∀ raw, parseChatContent raw =
      ((chatSplit raw).filter fun s => s ≠ []).filterMap claimClassify) ∧
    (∀ sec, (claimClassify sec).isSome ↔
      ((jsLower (jsTrim (firstLineOf sec)) = "user".data ∨
        jsLower (jsTrim (firstLineOf sec)) = "ai".data) ∧
        jsTrim (restOf sec) ≠ [])) ∧
    parseChatContent "## User\n\nhi\n\n## AI\n\nhello\n\n## Random\n\nignored".data =
      [⟨.user, "hi".data⟩, ⟨.ai, "hello".data⟩] := by
  refine ⟨?_, ?_, by decide⟩
  · intro raw
    exact parseChatContentGo_eq_filterMap _
  · intro sec
    unfold claimClassify
    by_cases h1 : jsTrim (restOf sec) = [] <;>
      by_cases h2 : jsLower (jsTrim (firstLineOf sec)) = "user".data <;>
      by_cases h3 : jsLower (jsTrim (firstLineOf sec)) = "ai".data <;>
      simp [h1, h2, h3]

/-! ## C4: section segmentation and intro extraction -/

/-- One step of the right fold that groups lines into sections: a heading line
captures the pending lines as its content, any other line joins the pending
run. -/
def groupStepL (l : List Char)
    (st : List (Nat × List Char × List (List Char)) × List (List Char)) :
    List (Nat × List Char × List (List Char)) × List (List Char) :=
  match headingOf l with
  | some (lvl, t) => ((lvl, t, st.2) :: st.1, [])
  | none => (st.1, l :: st.2)

/-- Grouping of a body's lines: the ordered heading groups (title, level and
the lines strictly between the heading and the next heading), plus the lines
preceding the first heading. -/
def sectionsLinesOf (lines : List (List Char)) :
    List (Nat × List Char × List (List Char)) × List (List Char) :=
  lines.foldr groupStepL ([], [])

/-- Build a section from a heading group, trimming the joined content. -/
def mkSec (g : Nat × List Char × List (List Char)) : PSection :=
  ⟨g.1, g.2.1, jsTrim (joinNl g.2.2)⟩

/-- What `parseSections` actually computes: the heading groups, except that
the lines preceding the first heading are prepended to the first section's
content (the source resets its content buffer only when a section is open). -/
def leakSections (lines : List (List Char)) : List PSection :=
  match sectionsLinesOf lines with
  | ([], _) => []
  | ((lvl, t, cl) :: rest, pre) =>
    ⟨lvl, t, jsTrim (joinNl (pre ++ cl))⟩ :: rest.map mkSec

theorem sectionsLinesOf_cons (l : List Char) (ls : List (List Char)) :
    sectionsLinesOf (l :: ls) = groupStepL l (sectionsLinesOf ls) := rfl

theorem parseSectionsGo_some (ls : List (List Char)) :
    ∀ (buf : List (List Char)) (lvl : Nat) (t : List Char),
      parseSectionsGo (some (lvl, t)) buf ls =
        ⟨lvl, t, jsTrim (joinNl (buf ++ (sectionsLinesOf ls).2))⟩ ::
          (sectionsLinesOf ls).1.map mkSec := by
  induction ls with
  | nil => intro buf lvl t; simp [parseSectionsGo, flushS, sectionsLinesOf]
  | cons l ls ih =>
    intro buf lvl t
    cases hh : headingOf l with
    | some h2 =>
      obtain ⟨lvl2, t2⟩ := h2
      simp only [parseSectionsGo, hh, flushS, Option.isSome_some, if_pos]
      rw [ih, sectionsLinesOf_cons]
      cases hsl : sectionsLinesOf ls with
      | mk groups pre => simp [groupStepL, hh, hsl, mkSec]
    | none =>
      simp only [parseSectionsGo, hh]
      rw [ih, sectionsLinesOf_cons]
      cases hsl : sectionsLinesOf ls with
      | mk groups pre => simp [groupStepL, hh, hsl]

theorem parseSectionsGo_none (ls : List (List Char)) :
    ∀ (buf : List (List Char)),
      parseSectionsGo none buf ls =
        match sectionsLinesOf ls with
        | ([], _) => []
        | ((lvl, t, cl) :: rest, pre) =>
          ⟨lvl, t, jsTrim (joinNl ((buf ++ pre) ++ cl))⟩ :: rest.map mkSec := by
  induction ls with
  | nil => intro buf; simp [parseSectionsGo, flushS, sectionsLinesOf]
  | cons l ls ih =>
    intro buf
    cases hh : headingOf l with
    | some h2 =>
      obtain ⟨lvl2, t2⟩ := h2
      simp only [parseSectionsGo, hh, flushS, Option.isSome_none, List.nil_append]
      rw [if_neg (by simp), parseSectionsGo_some, sectionsLinesOf_cons]
      cases hsl : sectionsLinesOf ls with
      | mk groups pre => simp [groupStepL, hh, hsl]
    | none =>
      simp only [parseSectionsGo, hh]
      rw [ih, sectionsLinesOf_cons]
      cases hsl : sectionsLinesOf ls with
      | mk groups pre =>
        cases groups with
        | nil => simp [groupStepL, hh, hsl]
        | cons g rest =>
          obtain ⟨glvl, gt, gcl⟩ := g
          simp [groupStepL, hh, hsl]

theorem sectionsLinesOf_no_heading (lines : List (List Char))
    (h : ∀ l ∈ lines, headingOf l = none) :
    sectionsLinesOf lines = ([], lines) := by
  induction lines with
  | nil => rfl
  | cons l ls ih =>
    have hl := h l (List.mem_cons_self l ls)
    simp only [sectionsLinesOf, List.foldr_cons]
    rw [show ls.foldr groupStepL ([], []) = sectionsLinesOf ls from rfl,
      ih fun x hx => h x (List.mem_cons_of_mem l hx)]
    simp [groupStepL, hl]

theorem takeWhile_all_of_pred {p : List Char → Bool} (ls : List (List Char))
    (h : ∀ l ∈ ls, p l = true) : ls.takeWhile p = ls := by
  induction ls with
  | nil => rfl
  | cons l ls ih =>
    simp only [List.takeWhile_cons, h l (List.mem_cons_self l ls), if_true]
    rw [ih fun x hx => h x (List.mem_cons_of_mem l hx)]

theorem takeWhile_stops {p : List Char → Bool} (pre : List (List Char))
    (l : List Char) (rest : List (List Char)) (hpre : ∀ x ∈ pre, p x = true)
    (hl : p l = false) : (pre ++ l :: rest).takeWhile p = pre := by
  induction pre with
  | nil => simp [List.takeWhile_cons, hl]
  | cons x xs ih =>
    simp only [List.cons_append, List.takeWhile_cons,
      hpre x (List.mem_cons_self x xs), if_true]
    rw [ih fun y hy => hpre y (List.mem_cons_of_mem x hy)]

/-- C4 counterexample: on `"intro\n### Sub\ncontent"` the claim predicts
intro `"intro"` and a single section with content `"content"`; the code keeps
the whole text as intro (the intro loop only stops at `/^##\s/` lines, not at
`### ` lines) and leaks the pre-heading line into the section's content. -/
theorem c4_counterexample :
    extractIntro "intro\n### Sub\ncontent".data = "intro\n### Sub\ncontent".data ∧
    parseSections "intro\n### Sub\ncontent".data =
      [⟨3, "Sub".data, "intro\ncontent".data⟩] ∧
    "intro\n### Sub\ncontent".data ≠ "intro".data ∧
    "intro\ncontent".data ≠ "content".data := by
  refine ⟨by decide, by decide, by decide, by decide⟩

/-- C4 (amended): the intro is the trimmed run of lines preceding the first
line matching `/^##\s/` (level-3 headings do not stop it; with no such line
the intro is the whole trimmed body), and `parseSections` returns the heading
groups in order — each section's content being the trimmed lines between its
heading and the next — except that the lines preceding the first heading are
prepended to the first section's content; a body with zero heading lines
yields no sections. -/
theorem c4_segment_sections_amended :
    (∀ raw, parseSections raw = leakSections (splitNl raw)) ∧
    (∀ raw pre l rest, splitNl raw = pre ++ l :: rest →
      (∀ p ∈ pre, isLevel2Marker p = false) → isLevel2Marker l = true →
      extractIntro raw = jsTrim (joinNl pre)) ∧
    (∀ raw, (∀ l ∈ splitNl raw, isLevel2Marker l = false) →
      extractIntro raw = jsTrim raw) ∧
    (∀ raw, (∀ l ∈ splitNl raw, headingOf l = none) → parseSections raw = []) := by
  refine ⟨?_, ?_, ?_, ?_⟩
  · intro raw
    unfold parseSections leakSections
    rw [parseSectionsGo_none]
    cases hsl : sectionsLinesOf (splitNl raw) with
    | mk groups pre =>
      cases groups with
      | nil => simp
      | cons g rest =>
        obtain ⟨glvl, gt, gcl⟩ := g
        simp
  · intro raw pre l rest hsplit hpre hl
    unfold extractIntro
    rw [hsplit, takeWhile_stops pre l rest (by intro x hx; simp [hpre x hx]) (by simp [hl])]
  · intro raw h
    unfold extractIntro
    rw [takeWhile_all_of_pred _ (by intro x hx; simp [h x hx])]
    unfold splitNl
    rw [show joinNl (List.splitOn '\n' raw) = raw from List.intercalate_splitOn raw '\n']
  · intro raw h
    unfold parseSections
    rw [parseSectionsGo_none, sectionsLinesOf_no_heading _ h]

/-- Witness for C4: the amended intro/zero-heading conjuncts at concrete
bodies. -/
theorem c4_segment_sections_amended_witness :
    extractIntro "before\n## A\nafter".data = "before".data ∧
    extractIntro "just\ntext".data = "just\ntext".data ∧
    parseSections "just\ntext".data = [] := by
  refine ⟨?_, ?_, ?_⟩
  · have h := c4_segment_sections_amended.2.1 "before\n## A\nafter".data
      ["before".data] "## A".data ["after".data] (by decide) (by decide) (by decide)
    rw [h]; decide
  · have h := c4_segment_sections_amended.2.2.1 "just\ntext".data (by decide)
    rw [h]; decide
  · exact c4_segment_sections_amended.2.2.2 "just\ntext".data (by decide)

/-! ## Trimming and searching helper lemmas -/

theorem dropWhile_all_false {p : Char → Bool} (l : List Char)
    (h : ∀ c ∈ l, p c = false) : l.dropWhile p = l := by
  cases l with
  | nil => rfl
  | cons c cs => simp [List.dropWhile_cons, h c (List.mem_cons_self c cs)]

theorem dropWhile_head_false {p : Char → Bool} (c : Char) (cs : List Char)
    (h : p c = false) : (c :: cs).dropWhile p = c :: cs := by
  simp [List.dropWhile_cons, h]

theorem jsTrim_nil : jsTrim [] = [] := rfl

/-- Trimming a string with one leading space and whitespace-free ends removes
exactly that space. -/
theorem jsTrim_space (vt : List Char) (hne : vt ≠ [])
    (hh : ∀ c, vt.head? = some c → isJsWs c = false)
    (hl : ∀ c, vt.getLast? = some c → isJsWs c = false) :
    jsTrim (' ' :: vt) = vt := by
  obtain ⟨c0, cs0, rfl⟩ := List.exists_cons_of_ne_nil hne
  have hrev : (' ' :: c0 :: cs0).reverse = (c0 :: cs0).reverse ++ [' '] := by
    simp
  have hrne : (c0 :: cs0).reverse ≠ [] := by simp
  obtain ⟨d, ds, hd⟩ := List.exists_cons_of_ne_nil hrne
  have hdlast : (c0 :: cs0).getLast? = some d := by
    rw [← List.head?_reverse, hd]; rfl
  unfold jsTrim trimRight trimLeft
  rw [hrev, hd]
  rw [show (d :: ds) ++ [' '] = d :: (ds ++ [' ']) from rfl]
  rw [dropWhile_head_false d (ds ++ [' ']) (hl d hdlast)]
  rw [show (d :: (ds ++ [' '])).reverse = (' ' :: (d :: ds).reverse) from by simp]
  rw [← hd, List.reverse_reverse]
  rw [List.dropWhile_cons]
  simp only [show isJsWs ' ' = true from rfl, if_true]
  exact dropWhile_head_false c0 cs0 (hh c0 rfl)

/-- A whole string of non-whitespace characters trims to itself. -/
theorem jsTrim_of_no_ws (s : List Char) (h : ∀ c ∈ s, isJsWs c = false) :
    jsTrim s = s := by
  unfold jsTrim trimRight trimLeft
  rw [dropWhile_all_false s.reverse fun c hc => h c (List.mem_reverse.mp hc),
    List.reverse_reverse, dropWhile_all_false s h]

theorem splitFirst_cons_pos (pat : List Char) (c : Char) (cs : List Char)
    (h : pat.isPrefixOf (c :: cs)) :
    splitFirst pat (c :: cs) = some ([], (c :: cs).drop pat.length) := by
  simp [splitFirst, h]

theorem splitFirst_cons_neg (pat : List Char) (c : Char) (cs : List Char)
    (h : ¬ pat.isPrefixOf (c :: cs)) :
    splitFirst pat (c :: cs) =
      match splitFirst pat cs with
      | some ab => some (c :: ab.1, ab.2)
      | none => none := by
  simp only [splitFirst, h, if_false]
  cases splitFirst pat cs with
  | none => rfl
  | some ab => obtain ⟨a, b⟩ := ab; rfl

theorem splitFirst_self (pat rest : List Char) (hne : pat ≠ []) :
    splitFirst pat (pat ++ rest) = some ([], rest) := by
  obtain ⟨p, ps, rfl⟩ := List.exists_cons_of_ne_nil hne
  have hpre : (p :: ps).isPrefixOf ((p :: ps) ++ rest) := by
    rw [List.isPrefixOf_iff_prefix]; exact ⟨rest, rfl⟩
  rw [show (p :: ps) ++ rest = p :: (ps ++ rest) from rfl] at hpre ⊢
  rw [splitFirst_cons_pos _ _ _ hpre]
  rw [show p :: (ps ++ rest) = (p :: ps) ++ rest from rfl, List.drop_left]

/-- Searching for a single character that a chunk does not contain walks past
the chunk. -/
theorem splitFirst_single (p : Char) (k rest : List Char) (h : p ∉ k) :
    splitFirst [p] (k ++ p :: rest) = some (k, rest) := by
  induction k with
  | nil =>
    rw [List.nil_append, show (p :: rest) = [p] ++ rest from rfl,
      splitFirst_self [p] rest (by simp)]
  | cons c cs ih =>
    have hcp : c ≠ p := fun hcp => h (hcp ▸ List.mem_cons_self c cs)
    have hpre : ¬ [p].isPrefixOf (c :: (cs ++ p :: rest)) := by
      simp [List.isPrefixOf, Ne.symm hcp]
    rw [show (c :: cs) ++ p :: rest = c :: (cs ++ p :: rest) from rfl]
    rw [splitFirst_cons_neg _ _ _ hpre, ih fun hm => h (List.mem_cons_of_mem c hm)]

/-- Walking a newline-free chunk cannot start a `\n`-prefixed match. -/
theorem splitFirst_nl_chunk (pat : List Char) (hpat : pat.head? = some '\n')
    (l r : List Char) (hl : '\n' ∉ l) (x y : List Char)
    (h : splitFirst pat r = some (x, y)) :
    splitFirst pat (l ++ r) = some (l ++ x, y) := by
  induction l with
  | nil => simpa using h
  | cons c cs ih =>
    have hc : c ≠ '\n' := fun hc => hl (hc ▸ List.mem_cons_self c cs)
    obtain ⟨p0, ps, rfl⟩ : ∃ p0 ps, pat = p0 :: ps := by
      cases pat with
      | nil => cases hpat
      | cons a as => exact ⟨a, as, rfl⟩
    have hp0 : p0 = '\n' := by simpa using hpat
    have hpre : ¬ (p0 :: ps).isPrefixOf (c :: (cs ++ r)) := by
      simp [List.isPrefixOf, hp0, Ne.symm hc]
    rw [show (c :: cs) ++ r = c :: (cs ++ r) from rfl]
    rw [splitFirst_cons_neg _ _ _ hpre, ih fun hm => hl (List.mem_cons_of_mem c hm)]
    rfl

/-- The central search lemma: in `lines ⧺ "\n---" ⧺ rest`, when every line is
non-empty, newline-free and does not start with `-`, the first occurrence of
`"\n---"` is exactly the sentinel after the joined lines. -/
theorem splitFirst_nlDash (lines : List (List Char)) (rest : List Char)
    (hne : ∀ l ∈ lines, l ≠ [])
    (hnl : ∀ l ∈ lines, '\n' ∉ l)
    (hhd : ∀ l ∈ lines, l.head? ≠ some '-') :
    splitFirst "\n---".data (joinNl lines ++ "\n---".data ++ rest) =
      some (joinNl lines, rest) := by
  induction lines with
  | nil =>
    rw [joinNl_nil, List.nil_append, splitFirst_self _ _ (by decide)]
  | cons l ls ih =>
    cases ls with
    | nil =>
      rw [joinNl_single]
      rw [List.append_assoc]
      simpa using splitFirst_nl_chunk "\n---".data rfl l ("\n---".data ++ rest)
        (hnl l (by simp)) [] rest
        (by simpa using splitFirst_self "\n---".data rest (by decide))
    | cons l2 ls2 =>
      rw [joinNl_cons₂]
      have hl2ne : l2 ≠ [] := hne l2 (by simp)
      obtain ⟨c2, cs2, rfl⟩ := List.exists_cons_of_ne_nil hl2ne
      have hc2 : ¬ c2 = '-' := by
        have := hhd (c2 :: cs2) (by simp)
        simpa using this
      obtain ⟨t, ht⟩ : ∃ t, joinNl ((c2 :: cs2) :: ls2) = c2 :: t := by
        cases ls2 with
        | nil => exact ⟨cs2, by rw [joinNl_single]⟩
        | cons l3 ls3 =>
          exact ⟨cs2 ++ '\n' :: joinNl (l3 :: ls3), by rw [joinNl_cons₂]; rfl⟩
      have hinner : splitFirst "\n---".data
          ('\n' :: (joinNl ((c2 :: cs2) :: ls2) ++ "\n---".data ++ rest)) =
          some ('\n' :: joinNl ((c2 :: cs2) :: ls2), rest) := by
        have hpre : ¬ "\n---".data.isPrefixOf
            ('\n' :: (joinNl ((c2 :: cs2) :: ls2) ++ "\n---".data ++ rest)) := by
          rw [ht]
          rw [show (c2 :: t) ++ "\n---".data ++ rest =
            c2 :: (t ++ ("\n---".data ++ rest)) from by simp]
          intro hcontra
          rw [List.isPrefixOf_iff_prefix] at hcontra
          obtain ⟨tail, htl⟩ := hcontra
          rw [show "\n---".data = ['\n', '-', '-', '-'] from rfl] at htl
          simp only [List.cons_append, List.nil_append] at htl
          injection htl with _ h2
          injection h2 with h3 _
          exact hc2 h3.symm
        rw [splitFirst_cons_neg _ _ _ hpre]
        rw [ih (fun x hx => hne x (by simp [hx]))
          (fun x hx => hnl x (by simp [hx]))
          (fun x hx => hhd x (by simp [hx]))]
      have hmain := splitFirst_nl_chunk "\n---".data rfl l
        ('\n' :: (joinNl ((c2 :: cs2) :: ls2) ++ "\n---".data ++ rest))
        (hnl l (by simp)) ('\n' :: joinNl ((c2 :: cs2) :: ls2)) rest hinner
      rw [show (l ++ '\n' :: joinNl ((c2 :: cs2) :: ls2)) ++ "\n---".data ++ rest =
        l ++ ('\n' :: (joinNl ((c2 :: cs2) :: ls2) ++ "\n---".data ++ rest)) from by
          simp]
      rw [hmain]

/-! ## C1: characters of serialized scalar values -/

theorem digitChar_large (n : Nat) : Nat.digitChar (n + 16) = '*' := by
  unfold Nat.digitChar
  repeat rw [if_neg (by omega)]

theorem digitChar_good (m : Nat) :
    isJsWs (Nat.digitChar m) = false ∧ Nat.digitChar m ≠ '"' ∧
      Nat.digitChar m ≠ '\n' :=
  match m with
  | 0 => by decide
  | 1 => by decide
  | 2 => by decide
  | 3 => by decide
  | 4 => by decide
  | 5 => by decide
  | 6 => by decide
  | 7 => by decide
  | 8 => by decide
  | 9 => by decide
  | 10 => by decide
  | 11 => by decide
  | 12 => by decide
  | 13 => by decide
  | 14 => by decide
  | 15 => by decide
  | (n + 16) => by rw [digitChar_large]; exact ⟨by decide, by decide, by decide⟩

theorem toDigitsCore_eq (b f n : Nat) (acc : List Char) :
    Nat.toDigitsCore b (f + 1) n acc =
      if n / b = 0 then (n % b).digitChar :: acc
      else Nat.toDigitsCore b f (n / b) ((n % b).digitChar :: acc) := rfl

theorem toDigitsCore_chars (b : Nat) :
    ∀ (f n : Nat) (acc : List Char), ∀ c ∈ Nat.toDigitsCore b f n acc,
      c ∈ acc ∨ ∃ m, c = Nat.digitChar m := by
  intro f
  induction f with
  | zero => intro n acc c hc; exact Or.inl hc
  | succ f ih =>
    intro n acc c hc
    rw [toDigitsCore_eq] at hc
    by_cases h : n / b = 0
    · rw [if_pos h] at hc
      rcases List.mem_cons.mp hc with rfl | hmem
      · exact Or.inr ⟨n % b, rfl⟩
      · exact Or.inl hmem
    · rw [if_neg h] at hc
      rcases ih (n / b) ((n % b).digitChar :: acc) c hc with hmem | hd
      · rcases List.mem_cons.mp hmem with rfl | hmem'
        · exact Or.inr ⟨n % b, rfl⟩
        · exact Or.inl hmem'
      · exact Or.inr hd

theorem toDigitsCore_ne_nil (b : Nat) :
    ∀ (f n : Nat) (acc : List Char), 0 < f ∨ acc ≠ [] →
      Nat.toDigitsCore b f n acc ≠ [] := by
  intro f
  induction f with
  | zero =>
    intro n acc h
    rcases h with h | h
    · omega
    · exact h
  | succ f ih =>
    intro n acc h
    rw [toDigitsCore_eq]
    by_cases hb : n / b = 0
    · simp [hb]
    · rw [if_neg hb]
      exact ih (n / b) _ (Or.inr (by simp))

theorem intRepr_chars (n : Int) :
    ∀ c ∈ (toString n).data, c = '-' ∨ ∃ m, c = Nat.digitChar m := by
  have hnat : ∀ (k : Nat), ∀ c ∈ (Nat.repr k).data, ∃ m, c = Nat.digitChar m := by
    intro k c hc
    have hmem : c ∈ Nat.toDigitsCore 10 (k + 1) k [] := hc
    rcases toDigitsCore_chars 10 (k + 1) k [] c hmem with h | h
    · cases h
    · exact h
  cases n with
  | ofNat k =>
    intro c hc
    exact Or.inr (hnat k c hc)
  | negSucc k =>
    intro c hc
    have hc' : c ∈ ('-' :: (Nat.repr (k + 1)).data) := by
      have : (toString (Int.negSucc k)).data = '-' :: (Nat.repr (k + 1)).data := by
        show (Int.repr (Int.negSucc k)).data = _
        rw [Int.repr]
        rw [String.data_append]
        rfl
      rwa [this] at hc
    rcases List.mem_cons.mp hc' with rfl | hmem
    · exact Or.inl rfl
    · exact Or.inr (hnat (k + 1) c hmem)

theorem intRepr_ne_nil (n : Int) : (toString n).data ≠ [] := by
  cases n with
  | ofNat k =>
    show (Nat.repr k).data ≠ []
    exact toDigitsCore_ne_nil 10 (k + 1) k [] (Or.inl (by omega))
  | negSucc k =>
    show (Int.repr (Int.negSucc k)).data ≠ []
    rw [Int.repr, String.data_append]
    simp

theorem escBackslash_eq_self (s : List Char) (h : '\\' ∉ s) :
    escBackslash s = s := by
  induction s with
  | nil => rfl
  | cons c cs ih =>
    have hc : c ≠ '\\' := fun hc => h (hc ▸ List.mem_cons_self c cs)
    simp only [escBackslash, List.flatMap_cons, if_neg hc]
    change [c] ++ escBackslash cs = c :: cs
    rw [ih fun hm => h (List.mem_cons_of_mem c hm)]
    rfl

theorem escQuote_eq_self (s : List Char) (h : '"' ∉ s) :
    escQuote s = s := by
  induction s with
  | nil => rfl
  | cons c cs ih =>
    have hc : c ≠ '"' := fun hc => h (hc ▸ List.mem_cons_self c cs)
    simp only [escQuote, List.flatMap_cons, if_neg hc]
    change [c] ++ escQuote cs = c :: cs
    rw [ih fun hm => h (List.mem_cons_of_mem c hm)]
    rfl

/-- The well-formedness the round trip needs of a key: non-empty, no
whitespace, no colon, and not starting with a hyphen. -/
def goodKey (k : List Char) : Bool :=
  !k.isEmpty && k.all (fun c => !isJsWs c && decide (c ≠ ':')) &&
    decide (k.head? ≠ some '-')

/-- Scalar values the lightweight decoder reads back verbatim: strings free of
quotes, backslashes and newlines, and booleans and integers. -/
def scalarOk : FmValue → Bool
  | .vstr s => decide ('"' ∉ s) && decide ('\\' ∉ s) && decide ('\n' ∉ s)
  | .vbool _ => true
  | .vint _ => true
  | _ => false

/-- The text the decoder is expected to recover for a scalar value. -/
def scalarText : FmValue → List Char
  | .vstr s => s
  | .vbool b => if b then "true".data else "false".data
  | .vint n => (toString n).data
  | _ => []

theorem serialized_facts (v : FmValue) (hv : scalarOk v = true) :
    serializeYamlValue v ≠ [] ∧
    '\n' ∉ serializeYamlValue v ∧
    (∀ c, (serializeYamlValue v).head? = some c → isJsWs c = false) ∧
    (∀ c, (serializeYamlValue v).getLast? = some c → isJsWs c = false) ∧
    stripQuotes (serializeYamlValue v) = scalarText v := by
  cases v with
  | vstr s =>
    simp only [scalarOk, Bool.and_eq_true, decide_eq_true_eq] at hv
    obtain ⟨⟨hq, hb⟩, hn⟩ := hv
    have hesc : escQuote (escBackslash s) = s := by
      rw [escBackslash_eq_self s hb, escQuote_eq_self s hq]
    simp only [serializeYamlValue, scalarText, hesc]
    have hshape : '"' :: s ++ ['"'] = ('"' :: s) ++ ['"'] := rfl
    refine ⟨by simp, ?_, ?_, ?_, ?_⟩
    · intro hmem
      rcases List.mem_cons.mp hmem with h | h
      · exact absurd h (by decide)
      · rcases List.mem_append.mp h with h' | h'
        · exact hn h'
        · exact absurd (List.mem_singleton.mp h') (by decide)
    · intro c hc
      rw [show ('"' :: s ++ ['"']).head? = some '"' from rfl] at hc
      injection hc with hc2
      rw [← hc2]; decide
    · intro c hc
      rw [show ('"' :: s ++ ['"']) = ('"' :: s) ++ ['"'] from rfl,
        List.getLast?_concat] at hc
      injection hc with hc2
      rw [← hc2]; decide
    · unfold stripQuotes
      rw [if_pos]
      · rw [show ('"' :: s ++ ['"']).drop 1 = s ++ ['"'] from rfl,
          List.dropLast_concat]
      · simp only [Bool.and_eq_true, beq_iff_eq, List.all_eq_true,
          decide_eq_true_eq]
        refine ⟨⟨⟨by simp, by simp⟩, ?_⟩, ?_⟩
        · rw [show ('"' :: s ++ ['"']) = ('"' :: s) ++ ['"'] from rfl,
            List.getLast?_concat]
        · rw [show ('"' :: s ++ ['"']).drop 1 = s ++ ['"'] from rfl,
            List.dropLast_concat]
          intro c hc hcn
          exact hn (hcn ▸ hc)
  | vbool b =>
    cases b <;> exact ⟨by decide, by decide, by decide, by decide, by decide⟩
  | vint n =>
    have hchars := intRepr_chars n
    have hnonempty := intRepr_ne_nil n
    have hgoodc : ∀ c ∈ (toString n).data,
        isJsWs c = false ∧ c ≠ '"' ∧ c ≠ '\n' := by
      intro c hc
      rcases hchars c hc with rfl | ⟨m, rfl⟩
      · exact ⟨by decide, by decide, by decide⟩
      · exact digitChar_good m
    simp only [serializeYamlValue, scalarText]
    refine ⟨hnonempty, ?_, ?_, ?_, ?_⟩
    · intro hmem
      exact (hgoodc '\n' hmem).2.2 rfl
    · intro c hc
      exact (hgoodc c (List.mem_of_mem_head? hc)).1
    · intro c hc
      exact (hgoodc c (List.mem_of_getLast?_eq_some hc)).1
    · unfold stripQuotes
      rw [if_neg]
      intro hcond
      simp only [Bool.and_eq_true, beq_iff_eq] at hcond
      obtain ⟨e, tl, heq⟩ := List.exists_cons_of_ne_nil hnonempty
      have hq := hcond.1.1.2
      rw [heq] at hq
      simp only [List.head?_cons, Option.some.injEq] at hq
      have := (hgoodc e (by rw [heq]; exact List.mem_cons_self _ _)).2.1
      exact this hq
  | vstrArr xs => simp [scalarOk] at hv
  | vrecArr ms => simp [scalarOk] at hv
  | vnull => simp [scalarOk] at hv

/-! ## C1: the decode-after-encode round trip -/

/-- The single header line a scalar field serializes to. -/
def scalarLine (kv : List Char × FmValue) : List Char :=
  kv.1 ++ ": ".data ++ serializeYamlValue kv.2

theorem goodKey_facts (k : List Char) (hk : goodKey k = true) :
    k ≠ [] ∧ (∀ c ∈ k, isJsWs c = false ∧ c ≠ ':') ∧ k.head? ≠ some '-' := by
  simp only [goodKey, Bool.and_eq_true, List.all_eq_true, Bool.not_eq_true',
    decide_eq_true_eq] at hk
  obtain ⟨⟨h1, h2⟩, h3⟩ := hk
  refine ⟨by simpa [List.isEmpty_iff] using h1, ?_, h3⟩
  intro c hc
  have := h2 c hc
  simp only [Bool.and_eq_true, Bool.not_eq_true', decide_eq_true_eq] at this
  exact this

theorem parseFmLine_scalar (fm : List (List Char × List Char))
    (k : List Char) (v : FmValue) (hk : goodKey k = true)
    (hv : scalarOk v = true) :
    parseFmLine fm (scalarLine (k, v)) = setFm fm k (scalarText v) := by
  obtain ⟨hkne, hkchars, _⟩ := goodKey_facts k hk
  obtain ⟨hvne, hvnl, hvh, hvl, hvstrip⟩ := serialized_facts v hv
  have hline : scalarLine (k, v) = k ++ ':' :: (' ' :: serializeYamlValue v) := by
    simp [scalarLine]
  have hcolon : ':' ∉ k := fun hm => (hkchars ':' hm).2 rfl
  have hsplit : splitFirst [':'] (scalarLine (k, v)) =
      some (k, ' ' :: serializeYamlValue v) := by
    rw [hline]
    exact splitFirst_single ':' k _ hcolon
  obtain ⟨k0, ks, rfl⟩ := List.exists_cons_of_ne_nil hkne
  have hhead : (scalarLine (k0 :: ks, v)).head? = some k0 := by
    rw [hline]; rfl
  have hk0 : isJsWs k0 = false := (hkchars k0 (List.mem_cons_self _ _)).1
  have hns : ¬ (scalarLine (k0 :: ks, v)).head? = some ' ' := by
    rw [hhead]
    intro hcontra
    injection hcontra with hcontra
    rw [hcontra] at hk0
    cases hk0
  have htrimk : jsTrim (k0 :: ks) = k0 :: ks :=
    jsTrim_of_no_ws _ fun c hc => (hkchars c hc).1
  have htrimv : jsTrim (' ' :: serializeYamlValue v) = serializeYamlValue v :=
    jsTrim_space _ hvne hvh hvl
  unfold parseFmLine
  rw [hsplit]
  show (if (scalarLine (k0 :: ks, v)).head? = some ' ' then fm
    else
      let key := jsTrim (k0 :: ks)
      let val := stripQuotes (jsTrim (' ' :: serializeYamlValue v))
      if key = [] then fm else setFm fm key val) =
    setFm fm (k0 :: ks) (scalarText v)
  rw [if_neg hns]
  simp only [htrimk, htrimv, hvstrip]
  rw [if_neg (by simp)]

theorem setFm_fresh (fm : List (List Char × List Char)) (k v : List Char)
    (h : ∀ kv ∈ fm, kv.1 ≠ k) : setFm fm k v = fm ++ [(k, v)] := by
  unfold setFm
  rw [if_neg]
  intro hcontra
  rw [List.any_eq_true] at hcontra
  obtain ⟨kv, hkv, heq⟩ := hcontra
  exact h kv hkv (by simpa using heq)

theorem foldl_parseFmLine (fields : List (List Char × FmValue)) :
    ∀ (acc : List (List Char × List Char)),
      (∀ kv ∈ fields, goodKey kv.1 = true ∧ scalarOk kv.2 = true) →
      (∀ kv ∈ fields, ∀ kv' ∈ acc, kv.1 ≠ kv'.1) →
      (fields.map Prod.fst).Nodup →
      (fields.map scalarLine).foldl parseFmLine acc =
        acc ++ fields.map fun kv => (kv.1, scalarText kv.2) := by
  induction fields with
  | nil => intro acc _ _ _; simp
  | cons kv fs ih =>
    intro acc hgood hfresh hnodup
    obtain ⟨k, v⟩ := kv
    have hkv := hgood (k, v) (List.mem_cons_self _ _)
    simp only [List.map_cons, List.foldl_cons]
    rw [parseFmLine_scalar acc k v hkv.1 hkv.2,
      setFm_fresh acc k (scalarText v)
        (fun kv' hkv' => Ne.symm (hfresh (k, v) (List.mem_cons_self _ _) kv' hkv'))]
    rw [List.map_cons, List.nodup_cons] at hnodup
    rw [ih (acc ++ [(k, scalarText v)])
      (fun kv' hkv' => hgood kv' (List.mem_cons_of_mem _ hkv'))
      ?_ hnodup.2]
    · simp
    · intro kv' hkv' kv'' hkv''
      rcases List.mem_append.mp hkv'' with h1 | h2
      · exact hfresh kv' (List.mem_cons_of_mem _ hkv') kv'' h1
      · rw [List.mem_singleton.mp h2]
        intro hcontra
        exact hnodup.1 (hcontra ▸ List.mem_map_of_mem Prod.fst hkv')

theorem fieldLines_scalar (k : List Char) (v : FmValue) (hv : scalarOk v = true) :
    fieldLines k v = [scalarLine (k, v)] := by
  cases v with
  | vstr s => rfl
  | vbool b => rfl
  | vint n => rfl
  | vstrArr xs => simp [scalarOk] at hv
  | vrecArr ms => simp [scalarOk] at hv
  | vnull => simp [scalarOk] at hv

theorem buildFrontmatter_scalar (fields : List (List Char × FmValue))
    (hgood : ∀ kv ∈ fields, scalarOk kv.2 = true) :
    buildFrontmatter fields = joinNl (fields.map scalarLine) := by
  unfold buildFrontmatter
  congr 1
  induction fields with
  | nil => rfl
  | cons kv fs ih =>
    simp only [List.flatMap_cons, List.map_cons]
    rw [fieldLines_scalar kv.1 kv.2 (by
      have := hgood kv (List.mem_cons_self _ _)
      exact this)]
    rw [ih fun kv' hkv' => hgood kv' (List.mem_cons_of_mem _ hkv')]
    rfl

theorem scalarLine_facts (k : List Char) (v : FmValue) (hk : goodKey k = true)
    (hv : scalarOk v = true) :
    scalarLine (k, v) ≠ [] ∧ '\n' ∉ scalarLine (k, v) ∧
      (scalarLine (k, v)).head? ≠ some '-' := by
  obtain ⟨hkne, hkchars, hkh⟩ := goodKey_facts k hk
  obtain ⟨hvne, hvnl, _, _, _⟩ := serialized_facts v hv
  obtain ⟨k0, ks, rfl⟩ := List.exists_cons_of_ne_nil hkne
  have hshape : scalarLine (k0 :: ks, v) =
      k0 :: (ks ++ ':' :: ' ' :: serializeYamlValue v) := by
    simp [scalarLine]
  refine ⟨by rw [hshape]; simp, ?_, ?_⟩
  · rw [hshape]
    intro hmem
    rcases List.mem_cons.mp hmem with h | h
    · have := (hkchars k0 (List.mem_cons_self _ _)).1
      rw [← h] at this
      exact absurd this (by decide)
    · rcases List.mem_append.mp h with h1 | h2
      · exact absurd (hkchars '\n' (List.mem_cons_of_mem _ h1)).1 (by decide)
      · rcases List.mem_cons.mp h2 with h3 | h4
        · exact absurd h3 (by decide)
        · rcases List.mem_cons.mp h4 with h5 | h6
          · exact absurd h5 (by decide)
          · exact hvnl h6
  · rw [hshape]
    intro hcontra
    injection hcontra with hcontra
    exact hkh (by rw [hcontra]; rfl)

theorem drop4_prefix (x : List Char) : ("---\n".data ++ x).drop 4 = x := by
  rw [show (4 : Nat) = "---\n".data.length from rfl, List.drop_left]

theorem extractFmBlock_eq (fm tail : List Char)
    (hsp : splitFirst "\n---".data (fm ++ "\n---".data ++ tail) = some (fm, tail)) :
    extractFmBlock ("---\n".data ++ (fm ++ "\n---".data ++ tail)) = some fm := by
  unfold extractFmBlock
  rw [if_pos (by rw [List.isPrefixOf_iff_prefix]; exact ⟨_, rfl⟩), drop4_prefix, hsp]
  rfl

/-- C1 counterexample: encoding the header field `title = say "hi"` and
decoding it back yields the escaped text `say \"hi\"`, not the original
value — the lightweight decoder strips quotes but never unescapes. -/
theorem c1_counterexample :
    readFrontmatter (assembleDocument
        [("title".data, .vstr "say \"hi\"".data)] "b".data) =
      [("title".data, "say \\\"hi\\\"".data)] ∧
    "say \\\"hi\\\"".data ≠ "say \"hi\"".data := by
  exact ⟨by decide, by decide⟩

/-- C1 (amended): for every header map of scalar fields whose keys are
non-empty, whitespace-free, colon-free and not starting with `-`, pairwise
distinct, and whose string values contain no double quote, backslash or
newline, decoding the document produced by the authoritative encoder yields
exactly the same keys in order, each bound to the text of the scalar the
encoder received (strings verbatim, booleans and numbers as their bare
text). -/
theorem c1_roundtrip_amended (fields : List (List Char × FmValue))
    (body : List Char)
    (hgood : ∀ kv ∈ fields, goodKey kv.1 = true ∧ scalarOk kv.2 = true)
    (hnodup : (fields.map Prod.fst).Nodup) :
    readFrontmatter (assembleDocument fields body) =
      fields.map fun kv => (kv.1, scalarText kv.2) := by
  have hbuild := buildFrontmatter_scalar fields fun kv hkv => (hgood kv hkv).2
  have hlf : ∀ l ∈ fields.map scalarLine,
      l ≠ [] ∧ '\n' ∉ l ∧ l.head? ≠ some '-' := by
    intro l hl
    obtain ⟨kv, hkv, rfl⟩ := List.mem_map.mp hl
    obtain ⟨k, v⟩ := kv
    exact scalarLine_facts k v (hgood (k, v) hkv).1 (hgood (k, v) hkv).2
  have hshape : assembleDocument fields body =
      "---\n".data ++ (buildFrontmatter fields ++ "\n---".data ++
        (['\n', '\n'] ++ jsTrim body ++ ['\n'])) := by
    unfold assembleDocument
    rw [show "\n---\n\n".data = "\n---".data ++ ['\n', '\n'] from rfl]
    simp [List.append_assoc]
  have hextract : extractFmBlock (assembleDocument fields body) =
      some (buildFrontmatter fields) := by
    rw [hshape]
    exact extractFmBlock_eq _ _ (by
      rw [hbuild]
      exact splitFirst_nlDash (fields.map scalarLine) _
        (fun l hl => (hlf l hl).1) (fun l hl => (hlf l hl).2.1)
        (fun l hl => (hlf l hl).2.2))
  unfold readFrontmatter
  rw [hextract]
  cases hfe : fields with
  | nil => decide
  | cons kv0 fs0 =>
    rw [← hfe, hbuild]
    show List.foldl parseFmLine [] (splitNl (joinNl (fields.map scalarLine))) =
      fields.map fun kv => (kv.1, scalarText kv.2)
    rw [splitNl_joinNl _ (by rw [hfe]; simp) (fun l hl => (hlf l hl).2.1)]
    rw [foldl_parseFmLine fields [] hgood (by simp) hnodup]
    rfl

/-- Witness for C1: a concrete two-field scalar header round-trips. -/
theorem c1_roundtrip_amended_witness :
    readFrontmatter (assembleDocument
        [("title".data, .vstr "My Plan".data), ("done".data, .vbool true)]
        "b".data) =
      [("title".data, "My Plan".data), ("done".data, "true".data)] := by
  have h := c1_roundtrip_amended
    [("title".data, .vstr "My Plan".data), ("done".data, .vbool true)]
    "b".data (by decide) (by decide)
  rw [h]
  decide

/-! ## C2: document assembly and body re-extraction -/

/-- Modelled from the spec: re-extraction of the body of a persisted document.
The repository itself reads bodies back through the Astro content layer, which
is not in the source tree; per the spec's persisted-document format the body is
everything after the closing header delimiter — located, like the in-repo
decoder's lazy pattern, at the first `\n---` after the opening line — with the
standard blank-line separator removed. -/
def reExtractBody (raw : List Char) : Option (List Char) :=
  if "---\n".data.isPrefixOf raw then
    match splitFirst "\n---".data (raw.drop 4) with
    | none => none
    | some ab =>
      if ['\n', '\n'].isPrefixOf ab.2 then some (ab.2.drop 2) else some ab.2
  else none

/-- C2 counterexample: with the header field `title = "x\n---"` (a string
value containing a newline) and body `hi`, re-extracting the body of the
assembled document yields `"\n---\n\nhi\n` — the quote-remainder of the title
line — rather than `hi` with one trailing newline, because the first `\n---`
of the document sits inside the encoded header. -/
theorem c2_counterexample :
    assembleDocument [("title".data, .vstr "x\n---".data)] "hi".data =
      "---\ntitle: \"x\n---\"\n---\n\nhi\n".data ∧
    reExtractBody (assembleDocument [("title".data, .vstr "x\n---".data)]
        "hi".data) = some "\"\n---\n\nhi\n".data ∧
    some "\"\n---\n\nhi\n".data ≠ some "hi\n".data := by
  exact ⟨by decide, by decide, by decide⟩

/-- C2 (amended): `AssembleDocument(H, B)` is exactly
`"---\n" ⧺ Encode(H) ⧺ "\n---\n\n" ⧺ B.trim() ⧺ "\n"`, and — provided every
line of the encoded header is non-empty, newline-free and does not start with
a hyphen (in particular no header value contains a newline) — re-extracting
the body from that output yields `B` trimmed followed by exactly one trailing
newline. -/
theorem c2_assemble_amended (fields : List (List Char × FmValue))
    (body : List Char)
    (hlines : ∀ l ∈ fields.flatMap fun kv => fieldLines kv.1 kv.2,
      l ≠ [] ∧ '\n' ∉ l ∧ l.head? ≠ some '-') :
    assembleDocument fields body =
      "---\n".data ++ buildFrontmatter fields ++ "\n---\n\n".data ++
        jsTrim body ++ ['\n'] ∧
    reExtractBody (assembleDocument fields body) =
      some (jsTrim body ++ ['\n']) := by
  refine ⟨rfl, ?_⟩
  have hshape : assembleDocument fields body =
      "---\n".data ++ (buildFrontmatter fields ++ "\n---".data ++
        (['\n', '\n'] ++ (jsTrim body ++ ['\n']))) := by
    unfold assembleDocument
    rw [show "\n---\n\n".data = "\n---".data ++ ['\n', '\n'] from rfl]
    simp [List.append_assoc]
  have hsp : splitFirst "\n---".data
      (buildFrontmatter fields ++ "\n---".data ++
        (['\n', '\n'] ++ (jsTrim body ++ ['\n']))) =
      some (buildFrontmatter fields, ['\n', '\n'] ++ (jsTrim body ++ ['\n'])) := by
    show splitFirst "\n---".data
      (joinNl (fields.flatMap fun kv => fieldLines kv.1 kv.2) ++ "\n---".data ++
        (['\n', '\n'] ++ (jsTrim body ++ ['\n']))) =
      some (joinNl (fields.flatMap fun kv => fieldLines kv.1 kv.2),
        ['\n', '\n'] ++ (jsTrim body ++ ['\n']))
    exact splitFirst_nlDash _ _ (fun l hl => (hlines l hl).1)
      (fun l hl => (hlines l hl).2.1) (fun l hl => (hlines l hl).2.2)
  rw [hshape]
  unfold reExtractBody
  rw [if_pos (by rw [List.isPrefixOf_iff_prefix]; exact ⟨_, rfl⟩), drop4_prefix, hsp]
  show (if ['\n', '\n'].isPrefixOf (['\n', '\n'] ++ (jsTrim body ++ ['\n'])) then
      some ((['\n', '\n'] ++ (jsTrim body ++ ['\n'])).drop 2)
    else some (['\n', '\n'] ++ (jsTrim body ++ ['\n']))) =
    some (jsTrim body ++ ['\n'])
  rw [if_pos (by rw [List.isPrefixOf_iff_prefix]; exact ⟨_, rfl⟩)]
  rw [show (2 : Nat) = (['\n', '\n'] : List Char).length from rfl, List.drop_left]

/-- Witness for C2: a concrete header (scalar plus milestones block) and an
untrimmed body re-extract to the trimmed body with one trailing newline. -/
theorem c2_assemble_amended_witness :
    reExtractBody (assembleDocument
        [("title".data, .vstr "T".data),
          ("milestones".data, .vrecArr [⟨"A".data, "W1".data, "not-started".data⟩])]
        "  hello\n".data) = some "hello\n".data := by
  have h := (c2_assemble_amended
    [("title".data, .vstr "T".data),
      ("milestones".data, .vrecArr [⟨"A".data, "W1".data, "not-started".data⟩])]
    "  hello\n".data (by decide)).2
  rw [h]
  decide

/-! ## C8: the checklist toggle (`EditablePlan.tsx`, `ContentRenderer`) -/

/-- Does the list start with a single non-newline character followed by `]`
(the tail of a `[.]` regex match whose `[` was just consumed)? -/
def isBoxTail (cs : List Char) : Bool :=
  match cs with
  | c2 :: ']' :: _ => c2 ≠ '\n'
  | _ => false

/-- `l.replace(/\[.\]/, '[ ]')`: rewrite the leftmost `[c]` (with `c` not a
newline) to `[ ]`. -/
def replaceBox : List Char → List Char
  | [] => []
  | c :: cs =>
    if c = '[' ∧ isBoxTail cs = true then c :: ' ' :: ']' :: cs.drop 2
    else c :: replaceBox cs

/-- `l.replace('[ ]', '[x]')`: plain-string replace of the first occurrence
(the replacement contains no `$` patterns). -/
def replaceFirstLit (pat repl s : List Char) : List Char :=
  match splitFirst pat s with
  | none => s
  | some ab => ab.1 ++ repl ++ ab.2

/-- The per-line body of the toggle's `lines.map` in `ContentRenderer`'s
checkbox `onClick`. -/
def toggleLine (text l : List Char) : List Char :=
  if jsTrim l = "- [x] ".data ++ text ∨ jsTrim l = "- [X] ".data ++ text then
    replaceBox l
  else if jsTrim l = "- [ ] ".data ++ text then
    replaceFirstLit "[ ]".data "[x]".data l
  else l

/-- The checklist toggle: map the per-line rewrite over the content's lines
and re-join. -/
def toggleChecklist (content text : List Char) : List Char :=
  joinNl ((splitNl content).map (toggleLine text))

/-- The claim-reading of one toggled line: flip the marker in place, keeping
the line's own leading and trailing whitespace. -/
def wsPrefixOf (l : List Char) : List Char := l.takeWhile isJsWs

def wsSuffixOf (l : List Char) : List Char := (l.reverse.takeWhile isJsWs).reverse

def flipLineSpec (text l : List Char) : List Char :=
  if jsTrim l = "- [ ] ".data ++ text then
    wsPrefixOf l ++ "- [x] ".data ++ text ++ wsSuffixOf l
  else if jsTrim l = "- [x] ".data ++ text ∨ jsTrim l = "- [X] ".data ++ text then
    wsPrefixOf l ++ "- [ ] ".data ++ text ++ wsSuffixOf l
  else l

theorem splitOnP_no_p (p : Char → Bool) (s : List Char) :
    ∀ l ∈ s.splitOnP p, ∀ c ∈ l, p c = false := by
  induction s with
  | nil =>
    intro l hl c hc
    rw [List.splitOnP_nil] at hl
    rw [List.mem_singleton.mp hl] at hc
    cases hc
  | cons a as ih =>
    intro l hl c hc
    rw [List.splitOnP_cons] at hl
    by_cases hpa : p a = true
    · rw [if_pos hpa] at hl
      rcases List.mem_cons.mp hl with rfl | h2
      · cases hc
      · exact ih l h2 c hc
    · rw [if_neg hpa] at hl
      cases hsp : as.splitOnP p with
      | nil => exact absurd hsp (List.splitOnP_ne_nil p as)
      | cons hd tl =>
        rw [hsp, List.modifyHead_cons] at hl
        rcases List.mem_cons.mp hl with rfl | h2
        · rcases List.mem_cons.mp hc with rfl | h3
          · simpa using hpa
          · exact ih hd (hsp ▸ List.mem_cons_self hd tl) c h3
        · exact ih l (hsp ▸ List.mem_cons_of_mem hd h2) c hc

theorem splitNl_no_nl (s : List Char) : ∀ l ∈ splitNl s, '\n' ∉ l := by
  intro l hl hmem
  have := splitOnP_no_p (fun x => x == '\n') s l hl '\n' hmem
  simp at this

theorem splitNl_ne_nil (s : List Char) : splitNl s ≠ [] :=
  List.splitOnP_ne_nil _ s

/-- Trimming a core wrapped in whitespace recovers the core, when the core's
own ends are not whitespace. -/
theorem jsTrim_wrap (a core b : List Char)
    (ha : ∀ c ∈ a, isJsWs c = true) (hb : ∀ c ∈ b, isJsWs c = true)
    (hne : core ≠ [])
    (hh : ∀ c, core.head? = some c → isJsWs c = false)
    (hl : ∀ c, core.getLast? = some c → isJsWs c = false) :
    jsTrim (a ++ core ++ b) = core := by
  obtain ⟨c0, cs0, rfl⟩ := List.exists_cons_of_ne_nil hne
  have hrevne : (c0 :: cs0).reverse ≠ [] := by simp
  obtain ⟨d, ds, hd⟩ := List.exists_cons_of_ne_nil hrevne
  have hdlast : (c0 :: cs0).getLast? = some d := by
    rw [← List.head?_reverse, hd]; rfl
  unfold jsTrim trimRight trimLeft
  have h1 : (a ++ (c0 :: cs0) ++ b).reverse =
      b.reverse ++ ((d :: ds) ++ a.reverse) := by
    rw [List.reverse_append, List.reverse_append, hd]
  rw [h1]
  rw [List.dropWhile_append]
  rw [show b.reverse.dropWhile isJsWs = [] from
    List.dropWhile_eq_nil_iff.mpr fun x hx => hb x (List.mem_reverse.mp hx)]
  simp only [List.isEmpty_nil, if_true]
  rw [show ((d :: ds) ++ a.reverse).dropWhile isJsWs =
      (d :: ds) ++ a.reverse from by
    rw [show (d :: ds) ++ a.reverse = d :: (ds ++ a.reverse) from rfl]
    exact dropWhile_head_false _ _ (hl d hdlast)]
  rw [show ((d :: ds) ++ a.reverse).reverse = a ++ (d :: ds).reverse from by
    rw [List.reverse_append]; simp]
  rw [← hd, List.reverse_reverse]
  rw [List.dropWhile_append]
  rw [show a.dropWhile isJsWs = [] from
    List.dropWhile_eq_nil_iff.mpr fun x hx => ha x hx]
  simp only [List.isEmpty_nil, if_true]
  exact dropWhile_head_false _ _ (hh c0 rfl)

/-- Every line decomposes as its whitespace prefix, its trim, and its
whitespace suffix, provided the trim is non-empty. -/
theorem jsTrim_decomp (l : List Char) (h : jsTrim l ≠ []) :
    l = wsPrefixOf l ++ jsTrim l ++ wsSuffixOf l ∧
    (∀ c ∈ wsPrefixOf l, isJsWs c = true) ∧
    (∀ c ∈ wsSuffixOf l, isJsWs c = true) := by
  have e1 : l = trimRight l ++ wsSuffixOf l := by
    conv_lhs => rw [← List.reverse_reverse l,
      ← List.takeWhile_append_dropWhile isJsWs l.reverse]
    rw [List.reverse_append]
    rfl
  have e2 : trimRight l = (trimRight l).takeWhile isJsWs ++ jsTrim l := by
    conv_lhs => rw [← List.takeWhile_append_dropWhile isJsWs (trimRight l)]
    rfl
  have hcond : ¬ ((trimRight l).takeWhile isJsWs).length = (trimRight l).length := by
    intro hlen
    have htake : (trimRight l).takeWhile isJsWs = trimRight l :=
      (List.takeWhile_prefix isJsWs).eq_of_length hlen
    have hdrop : jsTrim l = [] := by
      have heq := List.takeWhile_append_dropWhile isJsWs (trimRight l)
      rw [htake] at heq
      exact List.append_cancel_left (heq.trans (List.append_nil _).symm)
    exact h hdrop
  have e3 : wsPrefixOf l = (trimRight l).takeWhile isJsWs := by
    unfold wsPrefixOf
    conv_lhs => rw [e1]
    rw [List.takeWhile_append, if_neg hcond]
  refine ⟨?_, ?_, ?_⟩
  · conv_lhs => rw [e1]
    conv_lhs => rw [e2]
    rw [e3, List.append_assoc]
  · intro c hc
    exact List.mem_takeWhile_imp hc
  · intro c hc
    unfold wsSuffixOf at hc
    exact List.mem_takeWhile_imp (List.mem_reverse.mp hc)

theorem isJsWs_cases (c : Char) (h : isJsWs c = true) :
    c = ' ' ∨ c = '\t' ∨ c = '\n' ∨ c = '\r' ∨ c = '\x0b' ∨ c = '\x0c' := by
  simp only [isJsWs, Bool.or_eq_true, decide_eq_true_eq] at h
  tauto

theorem isJsWs_ne_bracket (c : Char) (h : isJsWs c = true) : c ≠ '[' := by
  rcases isJsWs_cases c h with rfl | rfl | rfl | rfl | rfl | rfl <;> decide

theorem splitFirst_chunk (p0 : Char) (ps : List Char) (l r x y : List Char)
    (hl : p0 ∉ l) (h : splitFirst (p0 :: ps) r = some (x, y)) :
    splitFirst (p0 :: ps) (l ++ r) = some (l ++ x, y) := by
  induction l with
  | nil => simpa using h
  | cons c cs ih =>
    have hc : c ≠ p0 := fun hc => hl (hc ▸ List.mem_cons_self c cs)
    have hpre : ¬ (p0 :: ps).isPrefixOf (c :: (cs ++ r)) := by
      simp [List.isPrefixOf, Ne.symm hc]
    rw [show (c :: cs) ++ r = c :: (cs ++ r) from rfl]
    rw [splitFirst_cons_neg _ _ _ hpre, ih fun hm => hl (List.mem_cons_of_mem c hm)]
    rfl

theorem replaceBox_chunk (ch rest : List Char) (h : '[' ∉ ch) :
    replaceBox (ch ++ rest) = ch ++ replaceBox rest := by
  induction ch with
  | nil => rfl
  | cons c cs ih =>
    have hc : ¬ (c = '[' ∧ isBoxTail (cs ++ rest) = true) := by
      rintro ⟨rfl, _⟩
      exact h (List.mem_cons_self _ _)
    rw [show (c :: cs) ++ rest = c :: (cs ++ rest) from rfl]
    show (if c = '[' ∧ isBoxTail (cs ++ rest) = true
      then c :: ' ' :: ']' :: (cs ++ rest).drop 2
      else c :: replaceBox (cs ++ rest)) = (c :: cs) ++ replaceBox rest
    rw [if_neg hc, ih fun hm => h (List.mem_cons_of_mem c hm)]
    rfl

theorem replaceBox_at (c : Char) (rest : List Char) (hc : c ≠ '\n') :
    replaceBox ('[' :: c :: ']' :: rest) = '[' :: ' ' :: ']' :: rest := by
  have hbt : isBoxTail (c :: ']' :: rest) = true := by
    simp [isBoxTail, hc]
  show (if ('[' : Char) = '[' ∧ isBoxTail (c :: ']' :: rest) = true
    then '[' :: ' ' :: ']' :: (c :: ']' :: rest).drop 2
    else '[' :: replaceBox (c :: ']' :: rest)) = '[' :: ' ' :: ']' :: rest
  rw [if_pos (And.intro rfl hbt)]
  rfl

theorem marker_forms_ne (t : List Char) :
    "- [ ] ".data ++ t ≠ "- [x] ".data ++ t ∧
    "- [ ] ".data ++ t ≠ "- [X] ".data ++ t ∧
    "- [x] ".data ++ t ≠ "- [X] ".data ++ t := by
  refine ⟨fun h => ?_, fun h => ?_, fun h => ?_⟩ <;>
    exact absurd (List.append_cancel_right h) (by decide)

theorem getLast?_append_right (l₁ l₂ : List Char) (h : l₂ ≠ []) :
    (l₁ ++ l₂).getLast? = l₂.getLast? := by
  rw [List.getLast?_append]
  obtain ⟨c, cs, rfl⟩ := List.exists_cons_of_ne_nil h
  cases hg : (c :: cs).getLast? with
  | none => simp at hg
  | some x => rfl

/-- The trimmed text of a marker line: head `-` and last character that of
the item text. -/
theorem marker_core_facts (mk t : List Char) (hmk : mk.head? = some '-')
    (hne : t ≠ []) (hlast : ∀ c, t.getLast? = some c → isJsWs c = false) :
    (mk ++ t) ≠ [] ∧
    (∀ c, (mk ++ t).head? = some c → isJsWs c = false) ∧
    (∀ c, (mk ++ t).getLast? = some c → isJsWs c = false) := by
  obtain ⟨m0, ms, rfl⟩ : ∃ m0 ms, mk = m0 :: ms := by
    cases mk with
    | nil => cases hmk
    | cons a as => exact ⟨a, as, rfl⟩
  have hm0 : m0 = '-' := by simpa using hmk
  refine ⟨by simp, ?_, ?_⟩
  · intro c hc
    rw [show ((m0 :: ms) ++ t).head? = some m0 from rfl] at hc
    injection hc with hc
    rw [← hc, hm0]
    decide
  · intro c hc
    rw [getLast?_append_right _ _ hne] at hc
    exact hlast c hc

theorem no_bracket_in_wsdash (A : List Char)
    (hpre : ∀ c ∈ A, isJsWs c = true) : '[' ∉ A ++ ['-', ' '] := by
  intro hm
  rcases List.mem_append.mp hm with hm1 | hm2
  · exact isJsWs_ne_bracket '[' (hpre '[' hm1) rfl
  · rcases List.mem_cons.mp hm2 with h | h
    · exact absurd h (by decide)
    · exact absurd (List.mem_singleton.mp h) (by decide)

theorem toggleLine_eq_flipSpec (text l : List Char) :
    toggleLine text l = flipLineSpec text l := by
  obtain ⟨hne1, hne2, hne3⟩ := marker_forms_ne text
  by_cases h1 : jsTrim l = "- [ ] ".data ++ text
  · have hnx : ¬ (jsTrim l = "- [x] ".data ++ text ∨
        jsTrim l = "- [X] ".data ++ text) := by
      rintro (h | h) <;> rw [h1] at h
      · exact hne1 h
      · exact hne2 h
    unfold toggleLine flipLineSpec
    rw [if_neg hnx, if_pos h1, if_pos h1]
    obtain ⟨hdec, hpre, hsuf⟩ := jsTrim_decomp l (by rw [h1]; simp)
    rw [h1] at hdec
    generalize hA : wsPrefixOf l = A at hdec hpre ⊢
    generalize hB : wsSuffixOf l = B at hdec hsuf ⊢
    have hinner : splitFirst ['[', ' ', ']'] ('[' :: ' ' :: ']' :: ' ' :: (text ++ B)) =
        some ([], ' ' :: (text ++ B)) :=
      splitFirst_self ['[', ' ', ']'] (' ' :: (text ++ B)) (by decide)
    have hstep := splitFirst_chunk '[' [' ', ']'] (A ++ ['-', ' '])
      ('[' :: ' ' :: ']' :: ' ' :: (text ++ B)) [] (' ' :: (text ++ B))
      (no_bracket_in_wsdash A hpre) hinner
    have hsp : splitFirst "[ ]".data l =
        some (A ++ ['-', ' '], ' ' :: (text ++ B)) := by
      rw [show l = (A ++ ['-', ' ']) ++
          ('[' :: ' ' :: ']' :: ' ' :: (text ++ B)) from by rw [hdec]; simp]
      rw [show "[ ]".data = ['[', ' ', ']'] from rfl]
      simpa using hstep
    unfold replaceFirstLit
    rw [hsp]
    simp
  · by_cases h2 : jsTrim l = "- [x] ".data ++ text ∨
        jsTrim l = "- [X] ".data ++ text
    · unfold toggleLine flipLineSpec
      rw [if_pos h2, if_neg h1, if_pos h2]
      rcases h2 with h2 | h2
      · obtain ⟨hdec, hpre, hsuf⟩ := jsTrim_decomp l (by rw [h2]; simp)
        rw [h2] at hdec
        generalize hA : wsPrefixOf l = A at hdec hpre ⊢
        generalize hB : wsSuffixOf l = B at hdec hsuf ⊢
        rw [show l = (A ++ ['-', ' ']) ++
            ('[' :: 'x' :: ']' :: (' ' :: (text ++ B))) from by rw [hdec]; simp]
        rw [replaceBox_chunk _ _ (no_bracket_in_wsdash A hpre)]
        rw [replaceBox_at _ _ (by decide)]
        simp
      · obtain ⟨hdec, hpre, hsuf⟩ := jsTrim_decomp l (by rw [h2]; simp)
        rw [h2] at hdec
        generalize hA : wsPrefixOf l = A at hdec hpre ⊢
        generalize hB : wsSuffixOf l = B at hdec hsuf ⊢
        rw [show l = (A ++ ['-', ' ']) ++
            ('[' :: 'X' :: ']' :: (' ' :: (text ++ B))) from by rw [hdec]; simp]
        rw [replaceBox_chunk _ _ (no_bracket_in_wsdash A hpre)]
        rw [replaceBox_at _ _ (by decide)]
        simp
    · unfold toggleLine flipLineSpec
      rw [if_neg h2, if_neg h1, if_neg h1, if_neg h2]

theorem takeWhile_ws_all (a : List Char) (ha : ∀ c ∈ a, isJsWs c = true) :
    a.takeWhile isJsWs = a := by
  induction a with
  | nil => rfl
  | cons c cs ih =>
    simp only [List.takeWhile_cons, ha c (List.mem_cons_self c cs), if_true]
    rw [ih fun x hx => ha x (List.mem_cons_of_mem c hx)]

theorem wsPrefixOf_wrap (a core b : List Char)
    (ha : ∀ c ∈ a, isJsWs c = true)
    (hh : ∀ c, core.head? = some c → isJsWs c = false) (hcne : core ≠ []) :
    wsPrefixOf (a ++ core ++ b) = a := by
  obtain ⟨c0, cs0, rfl⟩ := List.exists_cons_of_ne_nil hcne
  unfold wsPrefixOf
  rw [List.append_assoc, List.takeWhile_append,
    if_pos (by rw [takeWhile_ws_all a ha])]
  rw [show (c0 :: cs0) ++ b = c0 :: (cs0 ++ b) from rfl, List.takeWhile_cons,
    if_neg (by rw [hh c0 rfl]; simp)]
  simp

theorem wsSuffixOf_wrap (a core b : List Char)
    (hb : ∀ c ∈ b, isJsWs c = true)
    (hl : ∀ c, core.getLast? = some c → isJsWs c = false) (hcne : core ≠ []) :
    wsSuffixOf (a ++ core ++ b) = b := by
  have hrevne : core.reverse ≠ [] := by simpa using hcne
  obtain ⟨d, ds, hd⟩ := List.exists_cons_of_ne_nil hrevne
  have hdlast : core.getLast? = some d := by
    rw [← List.head?_reverse, hd]; rfl
  unfold wsSuffixOf
  rw [show (a ++ core ++ b).reverse = b.reverse ++ (core.reverse ++ a.reverse) from by
    rw [List.reverse_append, List.reverse_append]]
  rw [List.takeWhile_append,
    if_pos (by rw [takeWhile_ws_all b.reverse
      fun x hx => hb x (List.mem_reverse.mp hx)])]
  rw [hd, show (d :: ds) ++ a.reverse = d :: (ds ++ a.reverse) from rfl,
    List.takeWhile_cons, if_neg (by rw [hl d hdlast]; simp)]
  simp

theorem flipLineSpec_invol (text l : List Char)
    (hne : text ≠ []) (hlast : ∀ c, text.getLast? = some c → isJsWs c = false)
    (hX : jsTrim l ≠ "- [X] ".data ++ text) :
    flipLineSpec text (flipLineSpec text l) = l := by
  obtain ⟨hne1, hne2, hne3⟩ := marker_forms_ne text
  by_cases h1 : jsTrim l = "- [ ] ".data ++ text
  · obtain ⟨hdec, hpre, hsuf⟩ := jsTrim_decomp l (by rw [h1]; simp)
    rw [h1] at hdec
    generalize hA : wsPrefixOf l = A at hdec hpre ⊢
    generalize hB : wsSuffixOf l = B at hdec hsuf ⊢
    have hr : flipLineSpec text l = A ++ ("- [x] ".data ++ text) ++ B := by
      unfold flipLineSpec
      rw [if_pos h1, hA, hB]
      simp
    rw [hr]
    obtain ⟨hcne, hch, hcl⟩ := marker_core_facts "- [x] ".data text rfl hne hlast
    have htrim : jsTrim (A ++ ("- [x] ".data ++ text) ++ B) =
        "- [x] ".data ++ text := jsTrim_wrap A _ B hpre hsuf hcne hch hcl
    unfold flipLineSpec
    rw [if_neg (by rw [htrim]; exact fun hcontra => hne1 hcontra.symm),
      if_pos (Or.inl htrim)]
    rw [wsPrefixOf_wrap A _ B hpre hch hcne, wsSuffixOf_wrap A _ B hsuf hcl hcne]
    rw [hdec]
    simp
  · by_cases h2 : jsTrim l = "- [x] ".data ++ text
    · obtain ⟨hdec, hpre, hsuf⟩ := jsTrim_decomp l (by rw [h2]; simp)
      rw [h2] at hdec
      generalize hA : wsPrefixOf l = A at hdec hpre ⊢
      generalize hB : wsSuffixOf l = B at hdec hsuf ⊢
      have hr : flipLineSpec text l = A ++ ("- [ ] ".data ++ text) ++ B := by
        unfold flipLineSpec
        rw [if_neg h1, if_pos (Or.inl h2), hA, hB]
        simp
      rw [hr]
      obtain ⟨hcne, hch, hcl⟩ := marker_core_facts "- [ ] ".data text rfl hne hlast
      have htrim : jsTrim (A ++ ("- [ ] ".data ++ text) ++ B) =
          "- [ ] ".data ++ text := jsTrim_wrap A _ B hpre hsuf hcne hch hcl
      unfold flipLineSpec
      rw [if_pos htrim]
      rw [wsPrefixOf_wrap A _ B hpre hch hcne, wsSuffixOf_wrap A _ B hsuf hcl hcne]
      rw [hdec]
      simp
    · have hnone : flipLineSpec text l = l := by
        unfold flipLineSpec
        rw [if_neg h1, if_neg (by rintro (h | h); exact h2 h; exact hX h)]
      rw [hnone, hnone]

theorem mem_wsPrefixOf (c : Char) (l : List Char) (h : c ∈ wsPrefixOf l) :
    c ∈ l := (List.takeWhile_prefix isJsWs).subset h

theorem mem_wsSuffixOf (c : Char) (l : List Char) (h : c ∈ wsSuffixOf l) :
    c ∈ l := by
  unfold wsSuffixOf at h
  rw [List.mem_reverse] at h
  exact List.mem_reverse.mp ((List.takeWhile_prefix isJsWs).subset h)

theorem flipLineSpec_no_nl (text l : List Char) (hl : '\n' ∉ l)
    (ht : '\n' ∉ text) : '\n' ∉ flipLineSpec text l := by
  have hcore : ∀ mk : List Char, '\n' ∉ mk →
      '\n' ∉ wsPrefixOf l ++ mk ++ text ++ wsSuffixOf l := by
    intro mk hmk hmem
    rcases List.mem_append.mp hmem with h1 | h2
    · rcases List.mem_append.mp h1 with h3 | h4
      · rcases List.mem_append.mp h3 with h5 | h6
        · exact hl (mem_wsPrefixOf _ _ h5)
        · exact hmk h6
      · exact ht h4
    · exact hl (mem_wsSuffixOf _ _ h2)
  unfold flipLineSpec
  split_ifs with hc1 hc2
  · exact hcore "- [x] ".data (by decide)
  · exact hcore "- [ ] ".data (by decide)
  · exact hl

/-- C8 counterexample: the toggle keys on the item text, so a line in the
opposite state with the same text (`- [x] A` while toggling `- [ ] A`) also
flips, contradicting “leaves all other lines unchanged”; and on a capital
`- [X] A` line a double toggle normalizes the marker to `[x]`, so the toggle
is not an involution as stated. -/
theorem c8_counterexample :
    toggleChecklist "- [ ] A\n- [x] A".data "A".data =
      "- [x] A\n- [ ] A".data ∧
    jsTrim "- [x] A".data ≠ jsTrim "- [ ] A".data ∧
    "- [x] A\n- [ ] A".data ≠ "- [x] A\n- [x] A".data ∧
    toggleChecklist (toggleChecklist "- [X] A".data "A".data) "A".data =
      "- [x] A".data ∧
    "- [x] A".data ≠ "- [X] A".data := by
  exact ⟨by decide, by decide, by decide, by decide, by decide⟩

/-- C8 (amended): the toggle flips, in place and whitespace-preserved, the
marker of every line whose trimmed text is `- [ ] text`, `- [x] text` or
`- [X] text` for the given item text (checked forms become unchecked,
unchecked become `[x]`), and leaves every other line unchanged; toggling
twice restores the original content provided no matching line uses the
capital `- [X]` form; toggling `- [ ] Buy milk` yields `- [x] Buy milk` and
toggling again restores it. -/
theorem c8_toggle_amended :
    (∀ content text, toggleChecklist content text =
      joinNl ((splitNl content).map (flipLineSpec text))) ∧
    (∀ content text, text ≠ [] → '\n' ∉ text →
      (∀ c, text.getLast? = some c → isJsWs c = false) →
      (∀ l ∈ splitNl content, jsTrim l ≠ "- [X] ".data ++ text) →
      toggleChecklist (toggleChecklist content text) text = content) ∧
    toggleChecklist "- [ ] Buy milk".data "Buy milk".data =
      "- [x] Buy milk".data ∧
    toggleChecklist (toggleChecklist "- [ ] Buy milk".data "Buy milk".data)
      "Buy milk".data = "- [ ] Buy milk".data := by
  have hmap : ∀ content text, toggleChecklist content text =
      joinNl ((splitNl content).map (flipLineSpec text)) := by
    intro content text
    unfold toggleChecklist
    congr 1
    exact List.map_congr_left fun l _ => toggleLine_eq_flipSpec text l
  refine ⟨hmap, ?_, by decide, by decide⟩
  intro content text hne hnl hlast hX
  rw [hmap, hmap]
  have hsplit : splitNl (joinNl ((splitNl content).map (flipLineSpec text))) =
      (splitNl content).map (flipLineSpec text) := by
    apply splitNl_joinNl
    · simpa using splitNl_ne_nil content
    · intro l hl
      obtain ⟨l0, hl0, rfl⟩ := List.mem_map.mp hl
      exact flipLineSpec_no_nl text l0 (splitNl_no_nl content l0 hl0) hnl
  rw [hsplit, List.map_map]
  have hmapid : List.map (flipLineSpec text ∘ flipLineSpec text)
      (splitNl content) = List.map id (splitNl content) :=
    List.map_congr_left fun l hl =>
      flipLineSpec_invol text l hne hlast (hX l hl)
  rw [hmapid, List.map_id]
  exact List.intercalate_splitOn content '\n'

/-- Witness for C8: a two-line content with one checklist line double-toggles
back to itself. -/
theorem c8_toggle_amended_witness :
    toggleChecklist (toggleChecklist "- [ ] Buy milk\nplain text".data
      "Buy milk".data) "Buy milk".data = "- [ ] Buy milk\nplain text".data := by
  exact c8_toggle_amended.2.1 "- [ ] Buy milk\nplain text".data "Buy milk".data
    (by decide) (by decide) (by decide) (by decide)

/-! ### Block rendering and inline spans (ChatLog.tsx, PlanContent, EditablePlan)

`renderInlineMarkdown` (ChatLog.tsx), `renderInline` (PlanContent in the plan
page) and `renderInline` (EditablePlan.tsx) all run the same regex
`(\*\*(.+?)\*\*)|(X(.+?)X)|(\[(.+?)\]\((.+?)\))|(\*(.+?)\*)` (where X is a
backtick) in a scan loop, pushing the plain text between matches and a styled
span per match.  The regex engine scans positions left to right and tries the
four alternatives in order at each position; a lazy `(.+?)` takes the shortest
non-empty newline-free run ending at the first closing delimiter, and the whole
alternative fails when a newline intervenes before that delimiter. -/

/-- The backtick character U+0060 (the inline-code delimiter). -/
def backtick : Char := Char.ofNat 96

/-- Inline spans produced by the renderInline regex loop. -/
inductive Span where
  | stext (s : List Char)
  | sbold (s : List Char)
  | scode (s : List Char)
  | slink (txt url : List Char)
  | sital (s : List Char)
deriving DecidableEq

/-- First alternative `\*\*(.+?)\*\*` at the current position. -/
def tryBold : List Char → Option (Span × List Char)
  | '*' :: '*' :: c :: cs =>
    match splitFirst "**".data cs with
    | some (a, rest) =>
      if (c :: a).all (fun x => x ≠ '\n') then some (.sbold (c :: a), rest) else none
    | none => none
  | _ => none

/-- Second alternative: backtick, `(.+?)`, backtick. -/
def tryCode : List Char → Option (Span × List Char)
  | d :: c :: cs =>
    if d = backtick then
      match splitFirst [backtick] cs with
      | some (a, rest) =>
        if (c :: a).all (fun x => x ≠ '\n') then some (.scode (c :: a), rest) else none
      | none => none
    else none
  | _ => none

/-- Third alternative `\[(.+?)\]\((.+?)\)` at the current position. -/
def tryLink : List Char → Option (Span × List Char)
  | '[' :: c :: cs =>
    match splitFirst "](".data cs with
    | some (a, rest) =>
      if (c :: a).all (fun x => x ≠ '\n') then
        match rest with
        | c2 :: cs2 =>
          match splitFirst [')'] cs2 with
          | some (a2, rest2) =>
            if (c2 :: a2).all (fun x => x ≠ '\n') then
              some (.slink (c :: a) (c2 :: a2), rest2)
            else none
          | none => none
        | [] => none
      else none
    | none => none
  | _ => none

/-- Fourth alternative `\*(.+?)\*` at the current position. -/
def tryItal : List Char → Option (Span × List Char)
  | '*' :: c :: cs =>
    match splitFirst ['*'] cs with
    | some (a, rest) =>
      if (c :: a).all (fun x => x ≠ '\n') then some (.sital (c :: a), rest) else none
    | none => none
  | _ => none

/-- The four alternatives in source order at one position. -/
def tryAt (s : List Char) : Option (Span × List Char) :=
  match tryBold s with
  | some r => some r
  | none =>
    match tryCode s with
    | some r => some r
    | none =>
      match tryLink s with
      | some r => some r
      | none => tryItal s

/-- Leftmost regex match: the text before it, the span, and the remainder. -/
def findSpan : List Char → Option (List Char × Span × List Char)
  | [] => none
  | c :: cs =>
    match tryAt (c :: cs) with
    | some sr => some ([], sr.1, sr.2)
    | none =>
      match findSpan cs with
      | some br => some (c :: br.1, br.2)
      | none => none

/-- The exec loop of the three renderInline copies, fuelled by the input
length: every match consumes at least three characters, so the remainder
shrinks at each step and `s.length` steps always suffice; the base case
repeats the no-match branch. -/
def renderInlineGo : Nat → List Char → List Span
  | 0, s => if s.isEmpty then [] else [.stext s]
  | fuel + 1, s =>
    match findSpan s with
    | none => if s.isEmpty then [] else [.stext s]
    | some bsr =>
      (if bsr.1.isEmpty then [] else [Span.stext bsr.1]) ++
        bsr.2.1 :: renderInlineGo fuel bsr.2.2

/-- `renderInlineMarkdown` of ChatLog.tsx. -/
def renderInlineMarkdown (s : List Char) : List Span := renderInlineGo s.length s

/-- `renderInline` of the plan page (PlanContent); its body is
character-identical to the ChatLog copy apart from CSS classes. -/
def renderInlinePlan (s : List Char) : List Span := renderInlineGo s.length s

/-- `renderInline` of EditablePlan.tsx; again character-identical to the other
two copies apart from CSS classes. -/
def renderInlineEditable (s : List Char) : List Span := renderInlineGo s.length s

/-- Rendered block-level elements, shared output type of the block
renderers. -/
inductive Block where
  | para (s : List Char)
  | ulist (items : List (List Char))
  | olist (items : List (List Char))
  | checklist (items : List (Bool × List Char))
  | quote (s : List Char)
  | callout (icon : Char) (s : List Char)
  | divider
  | codeblock (lang content : List Char)
deriving DecidableEq

/-- Test of `/^[-*]\s/` on a trimmed line. -/
def isUlItem (t : List Char) : Bool :=
  match t with
  | c :: c2 :: _ => (c = '-' || c = '*') && isJsWs c2
  | _ => false

/-- `trimmed.replace(/^[-*]\s/, '')`: the matched marker is two characters. -/
def ulItemText (t : List Char) : List Char := t.drop 2

/-- Test of `/^\d+\.\s/`: a maximal non-empty digit run, a dot, a space. -/
def isOlItem (t : List Char) : Bool :=
  !(t.takeWhile Char.isDigit).isEmpty &&
    (match t.drop (t.takeWhile Char.isDigit).length with
     | '.' :: c :: _ => isJsWs c
     | _ => false)

/-- `trimmed.replace(/^\d+\.\s/, '')`. -/
def olItemText (t : List Char) : List Char :=
  t.drop ((t.takeWhile Char.isDigit).length + 2)

/-- `trimmed.replace(/^>\s?/, '')`: drop the `>` and one optional
whitespace. -/
def quoteTextOf (t : List Char) : List Char :=
  match t with
  | '>' :: c :: rest => if isJsWs c then rest else c :: rest
  | '>' :: [] => []
  | _ => t

/-- `trimmed.match(/^[-*]\s\[([ xX])\]\s(.+)/)`: checked flag and item
text. -/
def checkItemOf (t : List Char) : Option (Bool × List Char) :=
  match t with
  | m :: w :: '[' :: st :: ']' :: w2 :: rest =>
    if (m = '-' || m = '*') && isJsWs w && (st = ' ' || st = 'x' || st = 'X')
        && isJsWs w2 && !rest.isEmpty then
      some (st != ' ', rest)
    else none
  | _ => none

/-- Test of `/^-{3,}$/`. -/
def isHr (t : List Char) : Bool :=
  decide (3 ≤ t.length) && t.all (fun c => c = '-')

/-- Membership in the emoji-callout character class of renderBlock. -/
def isCalloutEmoji (c : Char) : Bool :=
  decide ((0x1F300 ≤ c.toNat ∧ c.toNat ≤ 0x1FAD6) ∨
    (0x2600 ≤ c.toNat ∧ c.toNat ≤ 0x27BF) ∨
    (0xFE00 ≤ c.toNat ∧ c.toNat ≤ 0xFE0F) ∨
    (0x1F900 ≤ c.toNat ∧ c.toNat ≤ 0x1F9FF))

/-- `quoteText.match(/^([emoji])\s*(.+)/u)`: callout icon and text.  The
greedy `\s*` swallows the whitespace after the icon, giving one character back
when everything after the icon is whitespace so that `(.+)` stays
non-empty. -/
def calloutOf (q : List Char) : Option (Char × List Char) :=
  match q with
  | c :: rest =>
    if isCalloutEmoji c && !rest.isEmpty then
      some (c, if (rest.dropWhile isJsWs).isEmpty then rest.drop (rest.length - 1)
               else rest.dropWhile isJsWs)
    else none
  | [] => none

/-- flushUl: emit the buffered unordered-list items, if any. -/
def ulFlush (buf : List (List Char)) : List Block :=
  if buf.isEmpty then [] else [.ulist buf]

/-- flushOl: emit the buffered ordered-list items, if any. -/
def olFlush (buf : List (List Char)) : List Block :=
  if buf.isEmpty then [] else [.olist buf]

/-- flushChecklist: emit the buffered checklist items, if any. -/
def clFlush (buf : List (Bool × List Char)) : List Block :=
  if buf.isEmpty then [] else [.checklist buf]

/-- The line loop of `renderTextBlock` (ChatLog.tsx): ul and ol buffers, and
branches for blank, unordered item, ordered item, blockquote and paragraph
lines — no checklist, divider, callout or fence handling. -/
def renderTextBlockGo : List (List Char) → List (List Char) → List (List Char) → List Block
  | ul, ol, [] => ulFlush ul ++ olFlush ol
  | ul, ol, line :: rest =>
    let t := jsTrim line
    if t.isEmpty then
      ulFlush ul ++ olFlush ol ++ renderTextBlockGo [] [] rest
    else if isUlItem t then
      olFlush ol ++ renderTextBlockGo (ul ++ [ulItemText t]) [] rest
    else if isOlItem t then
      ulFlush ul ++ renderTextBlockGo [] (ol ++ [olItemText t]) rest
    else if t.head? = some '>' then
      ulFlush ul ++ olFlush ol ++ Block.quote (quoteTextOf t) :: renderTextBlockGo [] [] rest
    else
      ulFlush ul ++ olFlush ol ++ Block.para t :: renderTextBlockGo [] [] rest

/-- `renderTextBlock` of ChatLog.tsx on its split lines. -/
def renderTextBlock (s : List Char) : List Block :=
  renderTextBlockGo [] [] (splitNl s)

/-- The line loop of `renderBlock` (PlanContent): ul, ol and checklist
buffers, and branches for blank, checklist, unordered, ordered,
blockquote-or-callout, horizontal-rule and paragraph lines. -/
def renderBlockGo : List (List Char) → List (List Char) → List (Bool × List Char) →
    List (List Char) → List Block
  | ul, ol, cl, [] => ulFlush ul ++ olFlush ol ++ clFlush cl
  | ul, ol, cl, line :: rest =>
    let t := jsTrim line
    if t.isEmpty then
      ulFlush ul ++ olFlush ol ++ clFlush cl ++ renderBlockGo [] [] [] rest
    else
      match checkItemOf t with
      | some item => ulFlush ul ++ olFlush ol ++ renderBlockGo [] [] (cl ++ [item]) rest
      | none =>
        if isUlItem t then
          olFlush ol ++ clFlush cl ++ renderBlockGo (ul ++ [ulItemText t]) [] [] rest
        else if isOlItem t then
          ulFlush ul ++ clFlush cl ++ renderBlockGo [] (ol ++ [olItemText t]) [] rest
        else if t.head? = some '>' then
          ulFlush ul ++ olFlush ol ++ clFlush cl ++
            (match calloutOf (quoteTextOf t) with
             | some ic => Block.callout ic.1 ic.2
             | none => Block.quote (quoteTextOf t)) :: renderBlockGo [] [] [] rest
        else if isHr t then
          ulFlush ul ++ olFlush ol ++ clFlush cl ++
            Block.divider :: renderBlockGo [] [] [] rest
        else
          ulFlush ul ++ olFlush ol ++ clFlush cl ++
            Block.para t :: renderBlockGo [] [] [] rest

/-- `renderBlock` of PlanContent; empty content renders nothing. -/
def renderBlock (s : List Char) : List Block :=
  if s.isEmpty then [] else renderBlockGo [] [] [] (splitNl s)

/-- One attempt of the fence regex three-backticks, `(\w*)`, newline, lazy
body, three-backticks at the current position: language word-run, code body up
to the first closing triple backtick, and the remainder. -/
def fenceAt (s : List Char) : Option (List Char × List Char × List Char) :=
  if "```".data.isPrefixOf s then
    match (s.drop 3).dropWhile isWordChar with
    | '\n' :: r =>
      match splitFirst "```".data r with
      | some cb => some ((s.drop 3).takeWhile isWordChar, cb.1, cb.2)
      | none => none
    | _ => none
  else none

/-- Leftmost match of the fence regex: text before the fence, language, code
body, remainder. -/
def findFence : List Char → Option (List Char × List Char × List Char × List Char)
  | [] => none
  | c :: cs =>
    match fenceAt (c :: cs) with
    | some lca => some ([], lca.1, lca.2.1, lca.2.2)
    | none =>
      match findFence cs with
      | some bl => some (c :: bl.1, bl.2.1, bl.2.2.1, bl.2.2.2)
      | none => none

/-- `parseBlocks` output elements: trimmed text runs and fenced code
blocks. -/
inductive RBlock where
  | rtext (s : List Char)
  | rcode (lang content : List Char)
deriving DecidableEq

/-- The exec loop of `parseBlocks` (ChatLog.tsx), fuelled by the input length:
every fence consumes at least seven characters, so the remainder shrinks at
each step and `s.length` steps always suffice; the base case repeats the
no-match branch. -/
def parseBlocksGo : Nat → List Char → List RBlock
  | 0, s => if (jsTrim s).isEmpty then [] else [.rtext (jsTrim s)]
  | fuel + 1, s =>
    match findFence s with
    | none => if (jsTrim s).isEmpty then [] else [.rtext (jsTrim s)]
    | some blca =>
      (if (jsTrim blca.1).isEmpty then [] else [RBlock.rtext (jsTrim blca.1)]) ++
        RBlock.rcode (if blca.2.1.isEmpty then "text".data else blca.2.1)
          (trimRight blca.2.2.1) :: parseBlocksGo fuel blca.2.2.2

/-- `parseBlocks` of ChatLog.tsx. -/
def parseBlocks (s : List Char) : List RBlock := parseBlocksGo s.length s

/-- How MessageBubble renders one parsed block: text blocks go through
`renderTextBlock`, code blocks become one code block element. -/
def chatBlockOf : RBlock → List Block
  | .rtext t => renderTextBlock t
  | .rcode lang c => [Block.codeblock lang c]

/-- The chat pipeline from message content to rendered blocks:
`parseBlocks`, then `renderTextBlock` on text runs and a code element per
fenced block. -/
def chatContentBlocks (content : List Char) : List Block :=
  (parseBlocks content).flatMap chatBlockOf

theorem mem_ulFlush {buf : List (List Char)} {b : Block} (h : b ∈ ulFlush buf) :
    b = Block.ulist buf := by
  unfold ulFlush at h
  by_cases hb : buf.isEmpty
  · rw [if_pos hb] at h; exact absurd h (List.not_mem_nil b)
  · rw [if_neg hb] at h; simpa using h

theorem mem_olFlush {buf : List (List Char)} {b : Block} (h : b ∈ olFlush buf) :
    b = Block.olist buf := by
  unfold olFlush at h
  by_cases hb : buf.isEmpty
  · rw [if_pos hb] at h; exact absurd h (List.not_mem_nil b)
  · rw [if_neg hb] at h; simpa using h

theorem mem_clFlush {buf : List (Bool × List Char)} {b : Block} (h : b ∈ clFlush buf) :
    b = Block.checklist buf := by
  unfold clFlush at h
  by_cases hb : buf.isEmpty
  · rw [if_pos hb] at h; exact absurd h (List.not_mem_nil b)
  · rw [if_neg hb] at h; simpa using h

/-- The plan-side block renderer has no fenced-code branch: no code block can
ever appear among its output blocks. -/
theorem renderBlockGo_no_code (lines : List (List Char)) :
    ∀ ul ol cl b, b ∈ renderBlockGo ul ol cl lines → ∀ lg c, b ≠ Block.codeblock lg c := by
  induction lines with
  | nil =>
    intro ul ol cl b hb lg c
    simp only [renderBlockGo, List.mem_append] at hb
    rcases hb with (h | h) | h
    · have := mem_ulFlush h; subst this; simp
    · have := mem_olFlush h; subst this; simp
    · have := mem_clFlush h; subst this; simp
  | cons l ls ih =>
    intro ul ol cl b hb lg c
    simp only [renderBlockGo] at hb
    by_cases h0 : (jsTrim l).isEmpty
    · rw [if_pos h0] at hb
      simp only [List.mem_append] at hb
      rcases hb with ((h | h) | h) | h
      · have := mem_ulFlush h; subst this; simp
      · have := mem_olFlush h; subst this; simp
      · have := mem_clFlush h; subst this; simp
      · exact ih [] [] [] b h lg c
    · rw [if_neg h0] at hb
      rcases hchk : checkItemOf (jsTrim l) with _ | item
      · rw [hchk] at hb
        simp only at hb
        by_cases hul : isUlItem (jsTrim l) = true
        · rw [if_pos hul] at hb
          simp only [List.mem_append] at hb
          rcases hb with (h | h) | h
          · have := mem_olFlush h; subst this; simp
          · have := mem_clFlush h; subst this; simp
          · exact ih _ _ _ b h lg c
        · rw [if_neg hul] at hb
          by_cases hol : isOlItem (jsTrim l) = true
          · rw [if_pos hol] at hb
            simp only [List.mem_append] at hb
            rcases hb with (h | h) | h
            · have := mem_ulFlush h; subst this; simp
            · have := mem_clFlush h; subst this; simp
            · exact ih _ _ _ b h lg c
          · rw [if_neg hol] at hb
            by_cases hgt : (jsTrim l).head? = some '>'
            · rw [if_pos hgt] at hb
              simp only [List.mem_append, List.mem_cons] at hb
              rcases hb with ((h | h) | h) | h | h
              · have := mem_ulFlush h; subst this; simp
              · have := mem_olFlush h; subst this; simp
              · have := mem_clFlush h; subst this; simp
              · subst h
                cases hco : calloutOf (quoteTextOf (jsTrim l)) with
                | none => simp [hco]
                | some ic => simp [hco]
              · exact ih _ _ _ b h lg c
            · rw [if_neg hgt] at hb
              by_cases hhr : isHr (jsTrim l) = true
              · rw [if_pos hhr] at hb
                simp only [List.mem_append, List.mem_cons] at hb
                rcases hb with ((h | h) | h) | h | h
                · have := mem_ulFlush h; subst this; simp
                · have := mem_olFlush h; subst this; simp
                · have := mem_clFlush h; subst this; simp
                · subst h; simp
                · exact ih _ _ _ b h lg c
              · rw [if_neg hhr] at hb
                simp only [List.mem_append, List.mem_cons] at hb
                rcases hb with ((h | h) | h) | h | h
                · have := mem_ulFlush h; subst this; simp
                · have := mem_olFlush h; subst this; simp
                · have := mem_clFlush h; subst this; simp
                · subst h; simp
                · exact ih _ _ _ b h lg c
      · rw [hchk] at hb
        simp only at hb
        simp only [List.mem_append] at hb
        rcases hb with (h | h) | h
        · have := mem_ulFlush h; subst this; simp
        · have := mem_olFlush h; subst this; simp
        · exact ih _ _ _ b h lg c

theorem takeWhile_append_stop {p : Char → Bool} (l : List Char)
    (hl : ∀ a ∈ l, p a = true) (c : Char) (hc : p c = false) (r : List Char) :
    (l ++ c :: r).takeWhile p = l ∧ (l ++ c :: r).dropWhile p = c :: r := by
  induction l with
  | nil => simp [List.takeWhile_cons, List.dropWhile_cons, hc]
  | cons a as ih =>
    have ha : p a = true := hl a (List.mem_cons_self _ _)
    have ih' := ih fun x hx => hl x (List.mem_cons_of_mem a hx)
    rw [show (a :: as) ++ c :: r = a :: (as ++ c :: r) from rfl]
    simp [List.takeWhile_cons, List.dropWhile_cons, ha, ih'.1, ih'.2]

/-- The fence regex matches at the start of a well-formed fence whose body
contains no backtick. -/
theorem fenceAt_pos (lang code : List Char) (hw : ∀ a ∈ lang, isWordChar a = true)
    (hb : backtick ∉ code) :
    fenceAt ("```".data ++ lang ++ '\n' :: (code ++ "```".data)) =
      some (lang, code, []) := by
  have htw := takeWhile_append_stop lang hw '\n' (by decide) (code ++ "```".data)
  have hpre : ("```".data).isPrefixOf
      ("```".data ++ lang ++ '\n' :: (code ++ "```".data)) = true := by
    rw [List.isPrefixOf_iff_prefix]
    exact ⟨lang ++ '\n' :: (code ++ "```".data), rfl⟩
  have hdrop : ("```".data ++ lang ++ '\n' :: (code ++ "```".data)).drop 3 =
      lang ++ '\n' :: (code ++ "```".data) := by
    simp [List.drop_left ("```".data) (lang ++ '\n' :: (code ++ "```".data))]
  have hpat : ("```".data : List Char) = backtick :: "``".data := by decide
  have hsplit : splitFirst "```".data (code ++ "```".data) = some (code, []) := by
    have hself : splitFirst "```".data "```".data = some ([], []) := by
      simpa using splitFirst_self "```".data [] (by decide)
    rw [hpat] at hself ⊢
    simpa using splitFirst_chunk backtick "``".data code (backtick :: "``".data)
      [] [] hb hself
  unfold fenceAt
  rw [if_pos hpre, hdrop]
  simp only [htw.2, hsplit, htw.1]

/-- The leftmost fence match on a document that is exactly one fence. -/
theorem findFence_pos (lang code : List Char) (hw : ∀ a ∈ lang, isWordChar a = true)
    (hb : backtick ∉ code) :
    findFence ("```".data ++ lang ++ '\n' :: (code ++ "```".data)) =
      some ([], lang, code, []) := by
  have hcons : ("```".data ++ lang ++ '\n' :: (code ++ "```".data) : List Char) =
      backtick :: ("``".data ++ (lang ++ '\n' :: (code ++ "```".data))) := by
    rw [show ("```".data : List Char) = backtick :: "``".data from by decide]
    rfl
  rw [hcons]
  simp only [findFence]
  rw [← hcons, fenceAt_pos lang code hw hb]

theorem parseBlocksGo_nil (n : Nat) : parseBlocksGo n [] = [] := by
  cases n <;> rfl

/-- C5 counterexample: the plan-side block renderer (`renderBlock` of
PlanContent) has no fence handling at all, so on content that is exactly a
fenced code span the fence lines become paragraphs and the enclosed lines are
classified as list items and blockquotes. -/
theorem c5_counterexample :
    renderBlock "```\n- item\n> q\n```".data =
      [Block.para "```".data, Block.ulist ["item".data], Block.quote "q".data,
        Block.para "```".data] := by decide

/-- C5 (amended): in the chat pipeline, `parseBlocks` does extract a
well-formed fenced code span (word-character language, body without
backticks) verbatim as a single code block, so none of its lines reach the
line classifiers; but the plan-side `renderBlock` has no fenced-code branch at
all — no code block ever appears among its output blocks, and fence contents
are handed to the ordinary line classifiers. -/
theorem c5_fence_amended :
    (∀ lang code, (∀ a ∈ lang, isWordChar a = true) → backtick ∉ code →
      parseBlocks ("```".data ++ lang ++ '\n' :: (code ++ "```".data)) =
        [RBlock.rcode (if lang.isEmpty then "text".data else lang) (trimRight code)]) ∧
    (∀ s b, b ∈ renderBlock s → ∀ lg c, b ≠ Block.codeblock lg c) := by
  constructor
  · intro lang code hw hb
    have hff := findFence_pos lang code hw hb
    unfold parseBlocks
    generalize hs : "```".data ++ lang ++ '\n' :: (code ++ "```".data) = s at hff ⊢
    cases s with
    | nil => exact Option.noConfusion hff
    | cons c cs =>
      rw [show (c :: cs).length = cs.length + 1 from rfl]
      simp only [parseBlocksGo]
      rw [hff]
      simp [jsTrim_nil, parseBlocksGo_nil]
  · intro s b hmem lg c
    unfold renderBlock at hmem
    by_cases hs : s.isEmpty
    · rw [if_pos hs] at hmem; exact absurd hmem (List.not_mem_nil b)
    · rw [if_neg hs] at hmem
      exact renderBlockGo_no_code (splitNl s) [] [] [] b hmem lg c

theorem c5_fence_amended_witness :
    parseBlocks ("```".data ++ "js".data ++ '\n' :: ("- a\n> b".data ++ "```".data)) =
      [RBlock.rcode (if ("js".data : List Char).isEmpty then "text".data else "js".data)
        (trimRight "- a\n> b".data)] ∧
    Block.para "x".data ≠ Block.codeblock "t".data "y".data :=
  ⟨c5_fence_amended.1 "js".data "- a\n> b".data (by decide) (by decide),
   c5_fence_amended.2 "x".data (Block.para "x".data) (by decide) "t".data "y".data⟩

/-- On lines that trigger none of the plan renderer's extra branches
(checklist, horizontal rule, emoji callout), the plan line loop and the chat
line loop classify identically. -/
theorem renderBlockGo_eq_text (lines : List (List Char)) :
    ∀ ul ol,
      (∀ l ∈ lines, checkItemOf (jsTrim l) = none ∧ isHr (jsTrim l) = false ∧
        ((jsTrim l).head? = some '>' → calloutOf (quoteTextOf (jsTrim l)) = none)) →
      renderBlockGo ul ol [] lines = renderTextBlockGo ul ol lines := by
  induction lines with
  | nil =>
    intro ul ol _
    simp [renderBlockGo, renderTextBlockGo, clFlush]
  | cons l ls ih =>
    intro ul ol h
    obtain ⟨hchk, hhr, hq⟩ := h l (List.mem_cons_self _ _)
    have hrest : ∀ x ∈ ls, checkItemOf (jsTrim x) = none ∧ isHr (jsTrim x) = false ∧
        ((jsTrim x).head? = some '>' → calloutOf (quoteTextOf (jsTrim x)) = none) :=
      fun x hx => h x (List.mem_cons_of_mem l hx)
    simp only [renderBlockGo, renderTextBlockGo]
    by_cases h0 : (jsTrim l).isEmpty
    · rw [if_pos h0, if_pos h0, ih [] [] hrest]
      simp [clFlush]
    · rw [if_neg h0, if_neg h0]
      simp only [hchk]
      by_cases hul : isUlItem (jsTrim l) = true
      · rw [if_pos hul, if_pos hul, ih _ [] hrest]
        simp [clFlush]
      · rw [if_neg hul, if_neg hul]
        by_cases hol : isOlItem (jsTrim l) = true
        · rw [if_pos hol, if_pos hol, ih [] _ hrest]
          simp [clFlush]
        · rw [if_neg hol, if_neg hol]
          by_cases hgt : (jsTrim l).head? = some '>'
          · rw [if_pos hgt, if_pos hgt, hq hgt, ih [] [] hrest]
            simp [clFlush]
          · rw [if_neg hgt, if_neg hgt]
            rw [hhr]
            simp only [Bool.false_eq_true, if_false]
            rw [ih [] [] hrest]
            simp [clFlush]

/-- C6 counterexample: the chat pipeline and the plan renderer are two
divergent copies, not one shared renderer — the chat copy classifies a
checklist line as a plain unordered-list item and a divider line as a
paragraph, while the plan copy produces a checklist and a divider. -/
theorem c6_counterexample :
    chatContentBlocks "- [ ] x".data ≠ renderBlock "- [ ] x".data ∧
    chatContentBlocks "- [ ] x".data = [Block.ulist ["[ ] x".data]] ∧
    renderBlock "- [ ] x".data = [Block.checklist [(false, "x".data)]] ∧
    chatContentBlocks "---".data = [Block.para "---".data] ∧
    renderBlock "---".data = [Block.divider] := by
  exact ⟨by decide, by decide, by decide, by decide, by decide⟩

/-- C6 (amended): the three inline-span parser copies (ChatLog, PlanContent,
EditablePlan) are extensionally equal; the two block-renderer copies agree on
every trimmed fence-free content none of whose lines is a checklist item, a
horizontal rule, or an emoji callout quote, but diverge on those three line
forms. -/
theorem c6_shared_renderer_amended :
    (∀ s, renderInlineMarkdown s = renderInlinePlan s ∧
      renderInlinePlan s = renderInlineEditable s) ∧
    (∀ content, content ≠ [] → jsTrim content = content → findFence content = none →
      (∀ l ∈ splitNl content, checkItemOf (jsTrim l) = none ∧ isHr (jsTrim l) = false ∧
        ((jsTrim l).head? = some '>' → calloutOf (quoteTextOf (jsTrim l)) = none)) →
      chatContentBlocks content = renderBlock content) := by
  constructor
  · intro s; exact ⟨rfl, rfl⟩
  · intro content hne htrim hff hlines
    have hE : content.isEmpty = false := by
      cases content with
      | nil => exact absurd rfl hne
      | cons a as => rfl
    have hpb : parseBlocks content = [RBlock.rtext content] := by
      unfold parseBlocks
      cases content with
      | nil => exact absurd rfl hne
      | cons c cs =>
        rw [show (c :: cs).length = cs.length + 1 from rfl]
        simp only [parseBlocksGo]
        rw [hff, htrim]
        rfl
    unfold chatContentBlocks
    rw [hpb]
    simp only [List.flatMap_cons, List.flatMap_nil, List.append_nil]
    show renderTextBlock content = renderBlock content
    unfold renderTextBlock renderBlock
    rw [hE]
    simp only [Bool.false_eq_true, if_false]
    exact (renderBlockGo_eq_text (splitNl content) [] [] hlines).symm

theorem c6_shared_renderer_amended_witness :
    (renderInlineMarkdown "a **b**".data = renderInlinePlan "a **b**".data ∧
      renderInlinePlan "a **b**".data = renderInlineEditable "a **b**".data) ∧
    chatContentBlocks "hi\n- a\n> q".data = renderBlock "hi\n- a\n> q".data :=
  ⟨c6_shared_renderer_amended.1 "a **b**".data,
   c6_shared_renderer_amended.2 "hi\n- a\n> q".data (by decide) (by decide)
     (by decide) (by decide)⟩

/-! ### The update_frontmatter MCP tool (mcp server copy in tests/mcp-utils.test.mjs)

The handler extracts the frontmatter block with the same lazy regex as the
reader, then for each supplied field builds a RegExp from the template
`^key:.*$` with the m flag — the key is spliced into the pattern
uninterpreted — tests it against the block, and on success replaces its first
match (a whole line, since `.*$` runs to the line end) with a rebuilt
`key: serialized` line; finally the old block text is string-replaced by the
new block in the raw document.  The matcher below interprets the spliced
pattern for the metacharacters reachable in this development: `.` (any
non-newline character) and a following `*` (Kleene star); every other
character matches literally.  `starChoices` enumerates the possible star
lengths shortest-first — the order is unobservable here because only match
existence and whole-line replacement are used.  JS replacement strings
undergo dollar-escape expansion, modelled by `expandRepl`. -/

/-- One pattern atom against one character. -/
def charMatch (p c : Char) : Bool :=
  if p = '.' then decide (c ≠ '\n') else decide (c = p)

/-- The remainders a starred atom can leave. -/
def starChoices (p : Char) : List Char → List (List Char)
  | [] => [[]]
  | c :: cs => (c :: cs) :: (if charMatch p c then starChoices p cs else [])

/-- The remainders the spliced pattern can leave on an input. -/
def patEat : List Char → List Char → List (List Char)
  | [], s => [s]
  | [p], s =>
    match s with
    | [] => []
    | c :: cs => if charMatch p c then [cs] else []
  | p :: q :: ps, s =>
    if q = '*' then (starChoices p s).flatMap (patEat ps)
    else
      match s with
      | [] => []
      | c :: cs => if charMatch p c then patEat (q :: ps) cs else []

/-- `lineRegex.test` on one line: `^key:` must match a prefix — the trailing
`.*$` always matches the newline-free rest of the line. -/
def lineMatch (key l : List Char) : Bool := !(patEat (key ++ [':']) l).isEmpty

/-- The apostrophe character U+0027 (the dollar-escape for the text after the
match). -/
def squote : Char := Char.ofNat 39

/-- JS replacement-string expansion: a dollar followed by a dollar, an
ampersand, a backtick or an apostrophe expands to a literal dollar, the
matched text, the text before the match, or the text after it; any other
dollar sequence is literal (the patterns used here have no capture groups, so
dollar-digit is literal too). -/
def expandRepl (matched bef aft : List Char) : List Char → List Char
  | [] => []
  | c :: cs =>
    if c = '$' then
      match cs with
      | [] => ['$']
      | d :: cs' =>
        if d = '$' then '$' :: expandRepl matched bef aft cs'
        else if d = '&' then matched ++ expandRepl matched bef aft cs'
        else if d = backtick then bef ++ expandRepl matched bef aft cs'
        else if d = squote then aft ++ expandRepl matched bef aft cs'
        else '$' :: d :: expandRepl matched bef aft cs'
    else c :: expandRepl matched bef aft cs

/-- Field values handled by the model: strings and arrays of strings (other
JSON values go through JSON.stringify in the source and are outside the
modelled value class). -/
inductive UVal where
  | ustr (s : List Char)
  | uarr (xs : List (List Char))
deriving DecidableEq

/-- The replacement value text: strings are wrapped in double quotes with no
escaping; arrays use the inline YAML form with each element double-quoted and
the elements joined by a comma and a space. -/
def serializedField : UVal → List Char
  | .ustr s => '"' :: (s ++ ['"'])
  | .uarr xs =>
    '[' :: (List.intercalate ", ".data (xs.map fun t => '"' :: t ++ ['"']) ++ [']'])

/-- The first line the spliced regex matches, with the lines before and
after it: with the m flag the pattern is anchored at line starts, so the
leftmost match is on the first matching line. -/
def findFmLine (key : List Char) :
    List (List Char) → Option (List (List Char) × List Char × List (List Char))
  | [] => none
  | l :: ls =>
    if lineMatch key l then some ([], l, ls)
    else
      match findFmLine key ls with
      | some bma => some (l :: bma.1, bma.2)
      | none => none

/-- One iteration of the field loop: if the spliced regex matches the block,
its first match — a whole line — is replaced by the rebuilt
`key: serialized` line (dollar-expanded); otherwise the block is unchanged
and the field is not added. -/
def updateField (fmBlock key : List Char) (v : UVal) : List Char :=
  match findFmLine key (splitNl fmBlock) with
  | none => fmBlock
  | some bma =>
    let bef := if bma.1.isEmpty then [] else joinNl bma.1 ++ ['\n']
    let aft := if bma.2.2.isEmpty then [] else '\n' :: joinNl bma.2.2
    bef ++ expandRepl bma.2.1 bef aft (key ++ ": ".data ++ serializedField v) ++ aft

/-- The field loop over the supplied fields in order. -/
def updateFields (fmBlock : List Char) (fields : List (List Char × UVal)) : List Char :=
  fields.foldl (fun fm kv => updateField fm kv.1 kv.2) fmBlock

/-- JS `replace` with a string pattern: the first occurrence is replaced and
the replacement undergoes dollar expansion. -/
def replaceFirstExp (pat repl s : List Char) : List Char :=
  match splitFirst pat s with
  | none => s
  | some ba => ba.1 ++ expandRepl pat ba.1 ba.2 repl ++ ba.2

/-- The whole handler on a document: extract the frontmatter block, run the
field loop, splice the new block over the first occurrence of the old block
text; a document without a frontmatter block is left untouched (the handler
returns an error). -/
def update_frontmatter (raw : List Char) (fields : List (List Char × UVal)) :
    Option (List Char) :=
  match extractFmBlock raw with
  | none => none
  | some fm => some (replaceFirstExp fm (updateFields fm fields) raw)

/-- The claim's notion of a frontmatter line carrying a key: the line starts
with the key followed by a colon. -/
def lineKeyed (key l : List Char) : Bool := (key ++ [':']).isPrefixOf l

/-- Modelled from the spec side of the claim, for comparison: rewrite the
first line carrying the key to `key: serialized`, leave every other line
byte-identical, add nothing when no line carries the key. -/
def replLineSpec (key sv : List Char) : List (List Char) → List (List Char)
  | [] => []
  | l :: ls =>
    if lineKeyed key l then (key ++ ": ".data ++ sv) :: ls
    else l :: replLineSpec key sv ls

theorem wordChar_facts (c : Char) (h : isWordChar c = true) :
    c ≠ '.' ∧ c ≠ '*' ∧ c ≠ '-' ∧ c ≠ '\n' ∧ c ≠ '$' := by
  refine ⟨fun hc => ?_, fun hc => ?_, fun hc => ?_, fun hc => ?_, fun hc => ?_⟩ <;>
    (subst hc; exact absurd h (by decide))

/-- On a key of word characters the spliced pattern is a literal-prefix
test. -/
theorem patEat_word (k : List Char) :
    ∀ l, (∀ c ∈ k, isWordChar c = true) →
      patEat (k ++ [':']) l =
        if (k ++ [':']).isPrefixOf l then [l.drop (k.length + 1)] else [] := by
  induction k with
  | nil =>
    intro l _
    cases l with
    | nil => rfl
    | cons c cs =>
      show (if charMatch ':' c = true then [cs] else []) = _
      by_cases hc : c = ':'
      · subst hc
        rw [if_pos (by decide), if_pos (by simp [List.isPrefixOf])]
        rfl
      · rw [if_neg (by simp [charMatch]; exact hc),
          if_neg (by simp [List.isPrefixOf, Ne.symm hc])]
  | cons a as ih =>
    intro l hk
    have ha := hk a (List.mem_cons_self _ _)
    have h' : ∀ c ∈ as, isWordChar c = true := fun c hc => hk c (List.mem_cons_of_mem a hc)
    have hred : patEat ((a :: as) ++ [':']) l =
        match l with
        | [] => []
        | c :: cs => if charMatch a c then patEat (as ++ [':']) cs else [] := by
      cases as with
      | nil => rfl
      | cons b bs =>
        have hb := h' b (List.mem_cons_self _ _)
        simp only [patEat, List.cons_append]
        rw [if_neg (wordChar_facts b hb).2.1]
        rfl
    rw [hred]
    cases l with
    | nil => rfl
    | cons c cs =>
      show (if charMatch a c = true then patEat (as ++ [':']) cs else []) = _
      by_cases hc : c = a
      · subst hc
        have hcm : charMatch c c = true := by
          unfold charMatch
          rw [if_neg (wordChar_facts c ha).1]
          simp
        rw [if_pos hcm, ih cs h']
        have hpre : ((c :: as) ++ [':']).isPrefixOf (c :: cs) =
            (as ++ [':']).isPrefixOf cs := by
          simp [List.cons_append, List.isPrefixOf]
        by_cases hp : (as ++ [':']).isPrefixOf cs = true
        · rw [if_pos hp, if_pos (by rw [hpre]; exact hp)]
          rfl
        · rw [if_neg hp, if_neg (by rw [hpre]; exact hp)]
      · have hcm : charMatch a c = false := by
          unfold charMatch
          rw [if_neg (wordChar_facts a ha).1]
          simp [hc]
        rw [hcm]
        simp only [Bool.false_eq_true, if_false]
        rw [if_neg (by simp [List.cons_append, List.isPrefixOf, Ne.symm hc])]

/-- For a word-character key, the spliced regex accepts a line exactly when
the line starts with the key and a colon. -/
theorem lineMatch_word (k l : List Char) (hk : ∀ c ∈ k, isWordChar c = true) :
    lineMatch k l = lineKeyed k l := by
  unfold lineMatch lineKeyed
  rw [patEat_word k l hk]
  cases hb : (k ++ [':']).isPrefixOf l
  · rw [if_neg (by simp [hb])]
    rfl
  · rw [if_pos (by simp [hb])]
    rfl

theorem findFmLine_none (key : List Char) :
    ∀ ls, findFmLine key ls = none → ∀ l ∈ ls, lineMatch key l = false := by
  intro ls
  induction ls with
  | nil => intro _ l hl; exact absurd hl (List.not_mem_nil l)
  | cons x xs ih =>
    intro h l hl
    simp only [findFmLine] at h
    by_cases hm : lineMatch key x = true
    · rw [if_pos hm] at h; cases h
    · rw [if_neg hm] at h
      rcases List.mem_cons.mp hl with rfl | hl'
      · cases hb : lineMatch key l with
        | false => rfl
        | true => exact absurd hb hm
      · refine ih ?_ l hl'
        rcases hf : findFmLine key xs with _ | bma
        · rfl
        · rw [hf] at h; cases h

theorem findFmLine_some (key : List Char) :
    ∀ ls b m a, findFmLine key ls = some (b, m, a) →
      ls = b ++ m :: a ∧ lineMatch key m = true ∧ ∀ l ∈ b, lineMatch key l = false := by
  intro ls
  induction ls with
  | nil => intro b m a h; cases h
  | cons x xs ih =>
    intro b m a h
    simp only [findFmLine] at h
    by_cases hm : lineMatch key x = true
    · rw [if_pos hm] at h
      cases h
      exact ⟨rfl, hm, fun l hl => absurd hl (List.not_mem_nil l)⟩
    · rw [if_neg hm] at h
      rcases hf : findFmLine key xs with _ | bma
      · rw [hf] at h; cases h
      · obtain ⟨b', m', a'⟩ := bma
        rw [hf] at h
        obtain ⟨hls, hmm, hball⟩ := ih b' m' a' hf
        obtain ⟨hb2, hm2, ha2⟩ : x :: b' = b ∧ m' = m ∧ a' = a := by
          injection h with h2
          simpa using h2
        subst hb2; subst hm2; subst ha2
        refine ⟨by rw [hls]; rfl, hmm, fun l hl => ?_⟩
        rcases List.mem_cons.mp hl with rfl | hl'
        · cases hb : lineMatch key l with
          | false => rfl
          | true => exact absurd hb hm
        · exact hball l hl'

theorem replLineSpec_no_match (key sv : List Char) :
    ∀ ls, (∀ l ∈ ls, lineKeyed key l = false) → replLineSpec key sv ls = ls := by
  intro ls
  induction ls with
  | nil => intro _; rfl
  | cons x xs ih =>
    intro h
    have hx := h x (List.mem_cons_self _ _)
    simp only [replLineSpec]
    rw [if_neg (by simp [hx]), ih fun l hl => h l (List.mem_cons_of_mem x hl)]

theorem replLineSpec_at (key sv : List Char) :
    ∀ b m a, (∀ l ∈ b, lineKeyed key l = false) → lineKeyed key m = true →
      replLineSpec key sv (b ++ m :: a) = b ++ (key ++ ": ".data ++ sv) :: a := by
  intro b
  induction b with
  | nil =>
    intro m a _ hm
    simp only [List.nil_append, replLineSpec]
    rw [if_pos hm]
  | cons x xs ih =>
    intro m a hb hm
    have hx := hb x (List.mem_cons_self _ _)
    show replLineSpec key sv (x :: (xs ++ m :: a)) = _
    simp only [replLineSpec]
    rw [if_neg (by simp [hx]), ih m a (fun l hl => hb l (List.mem_cons_of_mem x hl)) hm]
    rfl

theorem mem_replLineSpec (key sv : List Char) :
    ∀ ls l, l ∈ replLineSpec key sv ls → l ∈ ls ∨ l = key ++ ": ".data ++ sv := by
  intro ls
  induction ls with
  | nil => intro l hl; exact absurd hl (List.not_mem_nil l)
  | cons x xs ih =>
    intro l hl
    simp only [replLineSpec] at hl
    by_cases h : lineKeyed key x = true
    · rw [if_pos h] at hl
      rcases List.mem_cons.mp hl with rfl | hl'
      · exact Or.inr rfl
      · exact Or.inl (List.mem_cons_of_mem x hl')
    · rw [if_neg h] at hl
      rcases List.mem_cons.mp hl with rfl | hl'
      · exact Or.inl (List.mem_cons_self _ _)
      · rcases ih l hl' with h1 | h1
        · exact Or.inl (List.mem_cons_of_mem x h1)
        · exact Or.inr h1

theorem replLineSpec_ne_nil (key sv : List Char) (ls : List (List Char))
    (h : ls ≠ []) : replLineSpec key sv ls ≠ [] := by
  cases ls with
  | nil => exact absurd rfl h
  | cons x xs =>
    simp only [replLineSpec]
    by_cases hx : lineKeyed key x = true
    · rw [if_pos hx]; simp
    · rw [if_neg hx]; simp

theorem expandRepl_no_dollar (matched bef aft : List Char) :
    ∀ t, '$' ∉ t → expandRepl matched bef aft t = t := by
  intro t
  induction t with
  | nil => intro _; rfl
  | cons c cs ih =>
    intro h
    have hc : c ≠ '$' := fun hc => h (hc ▸ List.mem_cons_self _ _)
    rw [expandRepl.eq_def]
    simp only []
    rw [if_neg hc, ih fun hm => h (List.mem_cons_of_mem c hm)]

theorem joinNl_append_cons (b : List (List Char)) (x : List Char) (a : List (List Char)) :
    joinNl (b ++ x :: a) =
      (if b.isEmpty then [] else joinNl b ++ ['\n']) ++ x ++
        (if a.isEmpty then [] else '\n' :: joinNl a) := by
  induction b with
  | nil =>
    cases a with
    | nil => simp [joinNl_single]
    | cons y ys => simp [joinNl_cons₂]
  | cons l b' ih =>
    cases b' with
    | nil =>
      rw [show ([l] ++ x :: a : List (List Char)) = l :: x :: a from rfl, joinNl_cons₂]
      cases a with
      | nil => simp [joinNl_single]
      | cons y ys => rw [joinNl_cons₂]; simp [joinNl_single, joinNl_cons₂, List.append_assoc]
    | cons l2 b'' =>
      rw [show ((l :: l2 :: b'') ++ x :: a : List (List Char)) =
        l :: ((l2 :: b'') ++ x :: a) from rfl]
      rw [show ((l2 :: b'') ++ x :: a : List (List Char)) =
        l2 :: (b'' ++ x :: a) from rfl, joinNl_cons₂]
      rw [show (l2 :: (b'' ++ x :: a) : List (List Char)) =
        (l2 :: b'') ++ x :: a from rfl, ih, joinNl_cons₂]
      simp [List.append_assoc]

theorem not_mem_joinNl (c : Char) (hc : c ≠ '\n') :
    ∀ ls, (∀ l ∈ ls, c ∉ l) → c ∉ joinNl ls := by
  intro ls
  induction ls with
  | nil => intro _; simp [joinNl_nil]
  | cons x xs ih =>
    intro h
    cases xs with
    | nil => rw [joinNl_single]; exact h x (List.mem_cons_self _ _)
    | cons y ys =>
      rw [joinNl_cons₂]
      intro hm
      rcases List.mem_append.mp hm with h1 | h1
      · exact h x (List.mem_cons_self _ _) h1
      · rcases List.mem_cons.mp h1 with rfl | h2
        · exact hc rfl
        · exact ih (fun l hl => h l (List.mem_cons_of_mem x hl)) h2

theorem joinNl_cons_shape (l : List Char) (ls : List (List Char)) :
    ∃ t, joinNl (l :: ls) = l ++ t := by
  cases ls with
  | nil => exact ⟨[], by rw [joinNl_single]; simp⟩
  | cons m ms => exact ⟨'\n' :: joinNl (m :: ms), joinNl_cons₂ l m ms⟩

/-- One field-loop iteration equals the claim-side line rewrite, for a
word-character key and a dollar-free serialized value. -/
theorem updateField_spec (k : List Char) (v : UVal) (lines : List (List Char))
    (hk : ∀ c ∈ k, isWordChar c = true)
    (hnl : ∀ l ∈ lines, '\n' ∉ l) (hne : lines ≠ [])
    (hd : '$' ∉ serializedField v) :
    updateField (joinNl lines) k v = joinNl (replLineSpec k (serializedField v) lines) := by
  have htmpl : '$' ∉ k ++ ": ".data ++ serializedField v := by
    intro hm
    rcases List.mem_append.mp hm with h1 | h1
    · rcases List.mem_append.mp h1 with h2 | h2
      · exact absurd (hk _ h2) (by decide)
      · exact absurd h2 (by decide)
    · exact hd h1
  unfold updateField
  rw [splitNl_joinNl lines hne hnl]
  rcases hf : findFmLine k lines with _ | bma
  · simp only []
    rw [replLineSpec_no_match k _ lines fun l hl => by
      rw [← lineMatch_word k l hk]; exact findFmLine_none k lines hf l hl]
  · obtain ⟨b, m, a⟩ := bma
    simp only []
    obtain ⟨hls, hm, hb⟩ := findFmLine_some k lines b m a hf
    rw [hls, replLineSpec_at k _ b m a
      (fun l hl => by rw [← lineMatch_word k l hk]; exact hb l hl)
      (by rw [← lineMatch_word k m hk]; exact hm)]
    rw [joinNl_append_cons b _ a]
    rw [expandRepl_no_dollar _ _ _ _ htmpl]

/-- The field loop equals the claim-side fold, and the rewritten lines keep
the block-line invariants. -/
theorem updateFields_spec (fields : List (List Char × UVal)) :
    ∀ lines, lines ≠ [] →
      (∀ l ∈ lines, l ≠ [] ∧ '\n' ∉ l ∧ l.head? ≠ some '-' ∧ '$' ∉ l) →
      (∀ kv ∈ fields, (∀ c ∈ kv.1, isWordChar c = true) ∧
        '\n' ∉ serializedField kv.2 ∧ '$' ∉ serializedField kv.2) →
      updateFields (joinNl lines) fields =
        joinNl (fields.foldl (fun ls kv => replLineSpec kv.1 (serializedField kv.2) ls) lines) ∧
      fields.foldl (fun ls kv => replLineSpec kv.1 (serializedField kv.2) ls) lines ≠ [] ∧
      (∀ l ∈ fields.foldl (fun ls kv => replLineSpec kv.1 (serializedField kv.2) ls) lines,
        l ≠ [] ∧ '\n' ∉ l ∧ l.head? ≠ some '-' ∧ '$' ∉ l) := by
  induction fields with
  | nil => intro lines h1 h2 _; exact ⟨rfl, h1, h2⟩
  | cons kv fs ih =>
    intro lines h1 h2 hfld
    obtain ⟨hkw, hvn, hvd⟩ := hfld kv (List.mem_cons_self _ _)
    have hf' := fun x hx => hfld x (List.mem_cons_of_mem kv hx)
    have hstep := updateField_spec kv.1 kv.2 lines hkw (fun l hl => (h2 l hl).2.1) h1 hvd
    have hnewline : (kv.1 ++ ": ".data ++ serializedField kv.2) ≠ [] ∧
        '\n' ∉ (kv.1 ++ ": ".data ++ serializedField kv.2) ∧
        (kv.1 ++ ": ".data ++ serializedField kv.2).head? ≠ some '-' ∧
        '$' ∉ (kv.1 ++ ": ".data ++ serializedField kv.2) := by
      refine ⟨by simp, ?_, ?_, ?_⟩
      · intro hm
        rcases List.mem_append.mp hm with hA | hA
        · rcases List.mem_append.mp hA with hB | hB
          · exact absurd (hkw _ hB) (by decide)
          · exact absurd hB (by decide)
        · exact hvn hA
      · cases hk : kv.1 with
        | nil =>
          intro hcon
          rw [show (([] : List Char) ++ ": ".data ++ serializedField kv.2).head? =
            some ':' from rfl] at hcon
          injection hcon with hcc
          exact absurd hcc (by decide)
        | cons c cs =>
          intro hcon
          rw [show ((c :: cs) ++ ": ".data ++ serializedField kv.2).head? = some c from
            rfl] at hcon
          have hcw : isWordChar c = true := by
            refine hkw c ?_
            rw [hk]; exact List.mem_cons_self _ _
          injection hcon with hcc
          exact (wordChar_facts c hcw).2.2.1 hcc
      · intro hm
        rcases List.mem_append.mp hm with hA | hA
        · rcases List.mem_append.mp hA with hB | hB
          · exact absurd (hkw _ hB) (by decide)
          · exact absurd hB (by decide)
        · exact hvd hA
    have hinv : ∀ l ∈ replLineSpec kv.1 (serializedField kv.2) lines,
        l ≠ [] ∧ '\n' ∉ l ∧ l.head? ≠ some '-' ∧ '$' ∉ l := by
      intro l hl
      rcases mem_replLineSpec kv.1 (serializedField kv.2) lines l hl with h | h
      · exact h2 l h
      · rw [h]; exact hnewline
    have hne' := replLineSpec_ne_nil kv.1 (serializedField kv.2) lines h1
    obtain ⟨e1, e2, e3⟩ := ih (replLineSpec kv.1 (serializedField kv.2) lines) hne' hinv hf'
    refine ⟨?_, ?_, ?_⟩
    · show updateFields (joinNl lines) (kv :: fs) = _
      unfold updateFields
      rw [List.foldl_cons, List.foldl_cons, hstep]
      unfold updateFields at e1
      exact e1
    · rw [List.foldl_cons]; exact e2
    · rw [List.foldl_cons]; exact e3

/-- C10 counterexample: the field key is spliced into the line regex
uninterpreted, so the key `.*` matches the first frontmatter line whatever its
key is — updating fields `{".*": "v"}` rewrites the `title` line to
`.*: "v"`, although no frontmatter line carries the key `.*`: a line whose
key is not in the fields map is rewritten, and a field whose key is not
present in the block lands in it. -/
theorem c10_counterexample :
    update_frontmatter "---\ntitle: \"a\"\ndate: \"b\"\n---\n\nbody\n".data
        [(".*".data, UVal.ustr "v".data)] =
      some "---\n.*: \"v\"\ndate: \"b\"\n---\n\nbody\n".data ∧
    (∀ l ∈ splitNl "title: \"a\"\ndate: \"b\"".data, lineKeyed ".*".data l = false) := by
  exact ⟨by decide, by decide⟩

/-- C10 (amended): for word-character field keys and dollar-free newline-free
serialized values, on a document whose frontmatter lines are non-empty,
newline-free, dollar-free and do not start with a hyphen, update_frontmatter
is the claimed frame-preserving update: the delimiters and the entire body
are byte-identical, the block becomes the fold that rewrites, per field, the
first line starting with `key:` to `key: serialized`, leaves every other line
byte-identical, and adds nothing when no line starts with the key. -/
theorem c10_update_amended
    (lines : List (List Char)) (rest : List Char) (fields : List (List Char × UVal))
    (hne : lines ≠ [])
    (hl : ∀ l ∈ lines, l ≠ [] ∧ '\n' ∉ l ∧ l.head? ≠ some '-' ∧ '$' ∉ l)
    (hf : ∀ kv ∈ fields, (∀ c ∈ kv.1, isWordChar c = true) ∧
      '\n' ∉ serializedField kv.2 ∧ '$' ∉ serializedField kv.2) :
    update_frontmatter ("---\n".data ++ (joinNl lines ++ "\n---".data ++ rest)) fields =
      some ("---\n".data ++
        (joinNl (fields.foldl (fun ls kv => replLineSpec kv.1 (serializedField kv.2) ls)
            lines) ++
          "\n---".data ++ rest)) ∧
    (∀ key sv ls, (∀ l ∈ ls, lineKeyed key l = false) → replLineSpec key sv ls = ls) := by
  refine ⟨?_, fun key sv ls h => replLineSpec_no_match key sv ls h⟩
  obtain ⟨l₀, ls₀, rfl⟩ : ∃ l₀ ls₀, lines = l₀ :: ls₀ := by
    cases lines with
    | nil => exact absurd rfl hne
    | cons x xs => exact ⟨x, xs, rfl⟩
  obtain ⟨hl₀ne, hl₀nl, hl₀hd, _⟩ := hl l₀ (List.mem_cons_self _ _)
  obtain ⟨c₀, l₀', rfl⟩ : ∃ c₀ l₀', l₀ = c₀ :: l₀' := by
    cases l₀ with
    | nil => exact absurd rfl hl₀ne
    | cons c cs => exact ⟨c, cs, rfl⟩
  have hc₀d : c₀ ≠ '-' := fun h =>
    hl₀hd (by rw [show ((c₀ :: l₀') : List Char).head? = some c₀ from rfl, h])
  have hc₀n : c₀ ≠ '\n' := fun h => hl₀nl (h ▸ List.mem_cons_self _ _)
  obtain ⟨t, ht⟩ := joinNl_cons_shape (c₀ :: l₀') ls₀
  have ht' : joinNl ((c₀ :: l₀') :: ls₀) = c₀ :: (l₀' ++ t) := by rw [ht]; rfl
  have hex : extractFmBlock ("---\n".data ++
      (joinNl ((c₀ :: l₀') :: ls₀) ++ "\n---".data ++ rest)) =
      some (joinNl ((c₀ :: l₀') :: ls₀)) :=
    extractFmBlock_eq (joinNl ((c₀ :: l₀') :: ls₀)) rest
      (splitFirst_nlDash ((c₀ :: l₀') :: ls₀) rest (fun l hl' => (hl l hl').1)
        (fun l hl' => (hl l hl').2.1) (fun l hl' => (hl l hl').2.2.1))
  obtain ⟨e1, e2, e3⟩ := updateFields_spec fields ((c₀ :: l₀') :: ls₀) hne hl hf
  have hdF : '$' ∉ joinNl (fields.foldl
      (fun ls kv => replLineSpec kv.1 (serializedField kv.2) ls) ((c₀ :: l₀') :: ls₀)) :=
    not_mem_joinNl '$' (by decide) _ (fun l hl' => (e3 l hl').2.2.2)
  have hsp : splitFirst (c₀ :: (l₀' ++ t))
      ("---\n".data ++ ((c₀ :: (l₀' ++ t)) ++ ("\n---".data ++ rest))) =
      some ("---\n".data, "\n---".data ++ rest) := by
    have hmem : c₀ ∉ "---\n".data := by
      intro hm
      simp only [List.mem_cons, List.not_mem_nil, or_false] at hm
      rcases hm with h | h | h | h
      exacts [hc₀d h, hc₀d h, hc₀d h, hc₀n h]
    have hself := splitFirst_self (c₀ :: (l₀' ++ t)) ("\n---".data ++ rest) (by simp)
    have := splitFirst_chunk c₀ (l₀' ++ t) "---\n".data
      ((c₀ :: (l₀' ++ t)) ++ ("\n---".data ++ rest)) [] ("\n---".data ++ rest) hmem hself
    simpa using this
  unfold update_frontmatter
  rw [hex]
  simp only []
  rw [e1]
  unfold replaceFirstExp
  rw [ht', List.append_assoc (c₀ :: (l₀' ++ t)) "\n---".data rest, hsp]
  simp only []
  rw [expandRepl_no_dollar _ _ _ _ hdF]
  simp [List.append_assoc]

theorem c10_update_amended_witness :
    update_frontmatter ("---\n".data ++
        (joinNl ["title: \"a\"".data, "tags: [\"x\"]".data] ++ "\n---".data ++
          "\n\nbody\n".data))
        [("tags".data, UVal.uarr ["y".data, "z".data]),
          ("missing".data, UVal.ustr "m".data)] =
      some ("---\n".data ++
        (joinNl ([("tags".data, UVal.uarr ["y".data, "z".data]),
            ("missing".data, UVal.ustr "m".data)].foldl
              (fun ls kv => replLineSpec kv.1 (serializedField kv.2) ls)
              ["title: \"a\"".data, "tags: [\"x\"]".data]) ++
          "\n---".data ++ "\n\nbody\n".data)) ∧
    replLineSpec "q".data "v".data ["a: 1".data] = ["a: 1".data] :=
  ⟨(c10_update_amended ["title: \"a\"".data, "tags: [\"x\"]".data] "\n\nbody\n".data
      [("tags".data, UVal.uarr ["y".data, "z".data]),
        ("missing".data, UVal.ustr "m".data)]
      (by decide) (by decide) (by decide)).1,
   (c10_update_amended ["title: \"a\"".data, "tags: [\"x\"]".data] "\n\nbody\n".data
      [("tags".data, UVal.uarr ["y".data, "z".data]),
        ("missing".data, UVal.ustr "m".data)]
      (by decide) (by decide) (by decide)).2
     "q".data "v".data ["a: 1".data] (by decide)⟩

end AIChat
